import Mathlib

/-!
# CasADi `Function` handle: name validation, sanitisation and combinators

A shallow embedding of parts of `casadi/core/function.cpp`.

A C++ `std::string` is modelled by a Lean `String`, a `char` by a `Char`.
`std::isalpha` and `std::isalnum` are taken in the default "C" locale, where
exactly the ASCII letters are alphabetic and exactly the ASCII letters and
digits are alphanumeric.
-/

namespace Casadi

/-! ## Name validation and sanitisation -/

/-- The C library classification `std::isalpha` in the "C" locale. -/
def isalpha (c : Char) : Bool := c.isAlpha

/-- The C library classification `std::isalnum` in the "C" locale. -/
def isalnum (c : Char) : Bool := c.isAlphanum

/-- The reserved keywords, in the order the source lists them. -/
def keywords : List String := ["null", "jac", "hess"]

/-- The loop `for (; it!=name.end(); ++it)` of `Function::check_name`; the
argument is the text from the iterator `it` to the end of the name. -/
def check_rest : List Char → Bool
  | [] => true
  | c :: rest =>
    if c = '_' then
      -- Make sure that the next character isn't also an underscore
      match rest with
      | d :: _ => if d = '_' then false else check_rest rest
      | [] => check_rest rest
    else
      -- Make sure alphanumeric
      if !isalnum c then false else check_rest rest

/-- The function `Function::check_name` (function.cpp, lines 826-852). -/
def check_name (name : String) : Bool :=
  -- Check if empty
  if name.data.isEmpty then false
  -- Check if keyword
  else if keywords.any (fun kw => name == kw) then false
  else
    match name.data with
    | [] => false
    | c :: rest =>
      -- Make sure that the first character is a letter
      if !isalpha c then false
      -- Check remaining characters
      else check_rest rest

/-- The body of the loop `for (char c : name)` of `Function::fix_name`. The
state is the text written to the stream so far and the flag
`previous_is_underscore`. -/
def fix_step (st : List Char × Bool) (c : Char) : List Char × Bool :=
  if isalnum c then (st.1 ++ [c], false)
  else if !st.2 then (st.1 ++ ['_'], true)
  else st

/-- The loop `for (const char* kw : ...)` that closes `Function::fix_name`:
whenever the text equals the keyword at hand, a `1` is appended. -/
def fix_keywords (ss : String) : String :=
  keywords.foldl (fun acc kw => if acc == kw then acc ++ "1" else acc) ss

/-- The function `Function::fix_name` (function.cpp, lines 854-887). -/
def fix_name (name : String) : String :=
  -- Quick return if already valid name
  if check_name name then name
  -- If empty, name it "unnamed"
  else if name.data.isEmpty then "unnamed"
  else
    -- If the first character isn't a character, prepend an "a"
    let ss : List Char :=
      match name.data.head? with
      | some c => if !isalpha c then ['a'] else []
      | none => []
    -- Treat other characters
    let st := name.data.foldl fix_step (ss, false)
    -- If name became a keyword, append 1
    fix_keywords (String.mk st.1)

/-! ### Vocabulary of the specification -/

/-- An ASCII letter. -/
def IsLetter (c : Char) : Prop :=
  ('a' ≤ c ∧ c ≤ 'z') ∨ ('A' ≤ c ∧ c ≤ 'Z')

instance (c : Char) : Decidable (IsLetter c) := by
  unfold IsLetter; infer_instance

/-- An ASCII decimal digit. -/
def IsDigit (c : Char) : Prop := '0' ≤ c ∧ c ≤ '9'

/-- No underscore of the text is immediately followed by another one. -/
def NoDoubleUnderscore (l : List Char) : Prop :=
  ∀ i : Nat, l[i]? = some '_' → l[i + 1]? ≠ some '_'

/-- The specification's rewriting of a text: every alphanumeric character is
kept, in order, and every maximal run of non-alphanumeric characters is
replaced by a single underscore. -/
def collapse_runs : List Char → List Char
  | [] => []
  | c :: rest =>
    if isalnum c then c :: collapse_runs rest
    else '_' :: collapse_runs (rest.dropWhile (fun d => !isalnum d))
termination_by l => l.length
decreasing_by
  · simp
  · have := (List.dropWhile_suffix (fun d => !isalnum d) (l := rest)).length_le
    simp only [List.length_cons]
    omega

/-- The specification's description of what `fix_name` returns for a
non-empty name that is not valid: an `a` when the name does not start with a
letter, then the name with its runs of non-alphanumeric characters collapsed,
then a `1` when the text built so far is a reserved keyword. -/
def fix_name_spec (s : String) : String :=
  let lead : String :=
    match s.data.head? with
    | some c => if IsLetter c then "" else "a"
    | none => ""
  let built : String := lead ++ String.mk (collapse_runs s.data)
  built ++ (if built = "null" ∨ built = "jac" ∨ built = "hess" then "1" else "")

/-! ## Data model of the function handle and its collaborators -/

/-- Modelled from the spec: a sparsity pattern, absent from function.cpp, is
the dimensions (rows `size1`, columns `size2`) together with the positions of
the structurally nonzero elements. -/
structure Sparsity where
  size1 : Nat
  size2 : Nat
  nonzeros : List (Nat × Nat)
deriving DecidableEq, Inhabited

/-- Modelled from the spec: the value of an option of the configuration map;
function.cpp only ever stores vectors of strings and passes the rest on. -/
inductive GenericType where
  | bool (b : Bool)
  | int (i : Int)
  | string (s : String)
  | string_vector (v : List String)
deriving DecidableEq

/-- The configuration map `Dict`, as an association list. -/
abbrev Dict := List (String × GenericType)

/-- Modelled from the spec: an input port of a node, with its name, its
sparsity pattern and the symbolic placeholder that `mx_in` reports for it. -/
structure InPort (MX : Type) where
  name : String
  sparsity : Sparsity
  mx : MX

/-- Modelled from the spec: an output port of a node. -/
structure OutPort where
  name : String
  sparsity : Sparsity

/-- Modelled from the spec: the node behind a handle, as far as
function.cpp reads it through `(*this)->...`. The class `FunctionInternal` is
absent from function.cpp. `call arg i` is the `i`-th of the `n_out` expressions
that calling the node on the expressions `arg` yields. -/
structure Function (MX : Type) where
  name : String
  ports_in : List (InPort MX)
  ports_out : List OutPort
  call : List MX → Nat → MX

variable {MX : Type}

/-- The accessor `Function::n_in()`. -/
def Function.n_in (f : Function MX) : Nat := f.ports_in.length

/-- The accessor `Function::n_out()`. -/
def Function.n_out (f : Function MX) : Nat := f.ports_out.length

/-- The accessor `Function::name_in()`: the vector of all input names. -/
def Function.name_in (f : Function MX) : List String := f.ports_in.map (fun p => p.name)

/-- The accessor `Function::name_out()`: the vector of all output names. -/
def Function.name_out (f : Function MX) : List String := f.ports_out.map (fun p => p.name)

/-- The accessor `Function::name_in(int ind)`. -/
def Function.name_in_at (f : Function MX) (ind : Nat) : String := f.name_in.getD ind ""

/-- The accessor `Function::sparsity_in(int ind)`. -/
def Function.sparsity_in (f : Function MX) (ind : Nat) : Sparsity :=
  (f.ports_in.map (fun p => p.sparsity)).getD ind default

/-- The accessor `Function::sparsity_out(int ind)`. -/
def Function.sparsity_out (f : Function MX) (ind : Nat) : Sparsity :=
  (f.ports_out.map (fun p => p.sparsity)).getD ind default

/-- The accessor `Function::size2_in(int ind)`. -/
def Function.size2_in (f : Function MX) (ind : Nat) : Nat := (f.sparsity_in ind).size2

/-- The accessor `Function::size2_out(int ind)`. -/
def Function.size2_out (f : Function MX) (ind : Nat) : Nat := (f.sparsity_out ind).size2

/-- The accessor `Function::mx_in()`. -/
def Function.mx_in (f : Function MX) : List MX := f.ports_in.map (fun p => p.mx)

/-- The call operator `Function::operator()(const vector<MX>&)`: the vector of the `n_out`
results of a symbolic call, on arguments that have the sparsity patterns of
the inputs. The check of the arguments is `Function.eval_checked`. -/
def Function.eval (f : Function MX) (arg : List MX) : List MX :=
  (List.range f.n_out).map (f.call arg)

/-- The sparsity patterns of the inputs, `sparsity_in(i)` for every input `i`. -/
def Function.patterns_in (f : Function MX) : List Sparsity :=
  f.ports_in.map (fun p => p.sparsity)

/-- Modelled from the spec: the call operator with the check of the arguments
that the node, absent from function.cpp, makes: a call on an argument whose
sparsity pattern differs from the pattern of the input is a usage error,
`ShapeError`. The list `sp` holds the patterns of the arguments `arg`. -/
def Function.eval_checked (f : Function MX) (sp : List Sparsity) (arg : List MX) :
    Except String (List MX) :=
  if sp = f.patterns_in then .ok (f.eval arg) else .error "ShapeError"

/-- Modelled from the spec: the pattern of the columns from `c` on of the
pattern `sp`, which the last piece of `horzsplit` at the offsets `0`, `c`,
`sp.size2` has; `horzsplit` is absent from function.cpp. A position is the pair
of its row and its column. -/
def Sparsity.last_columns (sp : Sparsity) (c : Nat) : Sparsity :=
  { size1 := sp.size1
    size2 := sp.size2 - c
    nonzeros := (sp.nonzeros.filter (fun p => decide (c ≤ p.2))).map (fun p => (p.1, p.2 - c)) }

/-- The pattern of the value that `mapaccum` carries to accumulator input `i`
(function.cpp, lines 431-438): the pattern of output `i`, or of its last
`size2_in(i)` columns when the output has more columns than the input. -/
def Function.carried_sparsity (f : Function MX) (i : Nat) : Sparsity :=
  if f.size2_out i > f.size2_in i then
    (f.sparsity_out i).last_columns (f.size2_out i - f.size2_in i)
  else f.sparsity_out i

/-- The patterns of the entries of `arg` in an iteration of `mapaccum` after
the first: an accumulator input holds the value carried from the call before,
another input holds a symbol made with `sparsity_in(i)`. -/
def Function.carried_patterns (f : Function MX) (n_accum : Nat) : List Sparsity :=
  (List.range f.n_in).map
    (fun i => if i < n_accum then f.carried_sparsity i else f.sparsity_in i)

/-- The collaborators that function.cpp uses and does not define, taken as
parameters: the matrix expression algebra (`MX()`, `MX::sym`, `horzcat`,
`horzsplit`) and the constructors of nodes (`Function(name, arg, res, argn,
resn, opts)`, `Map::create`, `FunctionInternal::slice`). `MX::sym` creates a
new symbol at every call; its first argument here is the serial number of the
symbol created. -/
structure Env (MX : Type) where
  null : MX
  sym : Nat → String → Sparsity → MX
  horzcat : List MX → MX
  horzsplit : MX → List Int → List MX
  construct : String → List MX → List MX → List String → List String → Dict →
    Except String (Function MX)
  map_create : String → Function MX → Int → Except String (Function MX)
  slice : Function MX → String → List Int → List Int → Dict → Except String (Function MX)

/-! ## `Function::mapaccum(name, n, n_accum, opts)` -/

/-- The local vectors of `Function::mapaccum`, and the number of symbols
created so far. -/
structure AccumVars (MX : Type) where
  arg : List MX
  res : List MX
  varg : List (List MX)
  vres : List (List MX)
  next : Nat

/-- The body of the loop `for (int i=0; i<n_accum; ++i) varg[i].push_back(arg[i])`. -/
def push_accumulators_body (E : Env MX) (s : AccumVars MX) (i : Nat) : AccumVars MX :=
  { s with varg := s.varg.modify (fun w => w ++ [s.arg.getD i E.null]) i }

/-- The loop `for (int i=0; i<n_accum; ++i) varg[i].push_back(arg[i])`. -/
def push_accumulators (E : Env MX) (n_accum : Nat) (s : AccumVars MX) : AccumVars MX :=
  (List.range n_accum).foldl (push_accumulators_body E) s

/-- The body of the loop "Stacked input expressions":
`arg[i] = MX::sym(name_in(i) + "_" + to_string(i), sparsity_in(i)); varg[i].push_back(arg[i])`. -/
def stack_inputs_body (E : Env MX) (f : Function MX) (s : AccumVars MX) (i : Nat) :
    AccumVars MX :=
  let x := E.sym s.next (f.name_in_at i ++ "_" ++ toString i) (f.sparsity_in i)
  { s with arg := s.arg.set i x, varg := s.varg.modify (fun w => w ++ [x]) i,
           next := s.next + 1 }

/-- The loop "Stacked input expressions": `for (int i=n_accum; i<n_in; ++i)`. -/
def stack_inputs (E : Env MX) (f : Function MX) (n_accum : Nat) (s : AccumVars MX) :
    AccumVars MX :=
  (List.range' n_accum (f.n_in - n_accum)).foldl (stack_inputs_body E f) s

/-- The body of the loop "Save output expressions": `vres[i].push_back(res[i])`. -/
def save_outputs_body (E : Env MX) (s : AccumVars MX) (i : Nat) : AccumVars MX :=
  { s with vres := s.vres.modify (fun w => w ++ [s.res.getD i E.null]) i }

/-- The loop "Save output expressions": `for (int i=0; i<n_out; ++i)`. -/
def save_outputs (E : Env MX) (f : Function MX) (s : AccumVars MX) : AccumVars MX :=
  (List.range f.n_out).foldl (save_outputs_body E) s

/-- One assignment of `copy_n(res.begin(), n_accum, arg.begin())`. -/
def copy_outputs_body (E : Env MX) (s : AccumVars MX) (i : Nat) : AccumVars MX :=
  { s with arg := s.arg.set i (s.res.getD i E.null) }

/-- The statement `copy_n(res.begin(), n_accum, arg.begin())`. -/
def copy_outputs (E : Env MX) (n_accum : Nat) (s : AccumVars MX) : AccumVars MX :=
  (List.range n_accum).foldl (copy_outputs_body E) s

/-- The body of the loop "Ony get last component (allows nested calls)":
`if (nrow_out>nrow_in) arg[i] = horzsplit(arg[i], {0, nrow_out-nrow_in, nrow_out}).back()`
with `nrow_out=size2_out(i)` and `nrow_in=size2_in(i)`. -/
def last_component_body (E : Env MX) (f : Function MX) (s : AccumVars MX) (i : Nat) :
    AccumVars MX :=
  let nrow_out : Int := f.size2_out i
  let nrow_in : Int := f.size2_in i
  if nrow_out > nrow_in then
    let pieces := E.horzsplit (s.arg.getD i E.null) [0, nrow_out - nrow_in, nrow_out]
    { s with arg := s.arg.set i (pieces.getLastD E.null) }
  else s

/-- The loop "Ony get last component (allows nested calls)":
`for (int i=0; i<n_accum; ++i)`. -/
def last_component (E : Env MX) (f : Function MX) (n_accum : Nat) (s : AccumVars MX) :
    AccumVars MX :=
  (List.range n_accum).foldl (last_component_body E f) s

/-- The loop `for (int iter=0; iter<n; ++iter)` of `Function::mapaccum`; the
first argument is the number `n - iter` of iterations still to run. The list
`sp` holds the sparsity patterns of the entries of `arg`, which the call of
`f` checks: those of `mx_in()` in the first iteration, those of the carried
values afterwards. A failure of the call comes with the number of symbols
created so far. -/
def mapaccum_loop (E : Env MX) (f : Function MX) (n_accum : Nat) :
    Nat → List Sparsity → AccumVars MX → Except (String × Nat) (AccumVars MX)
  | 0, _, s => .ok s
  | r + 1, sp, s =>
    -- Stacked input expressions
    let s1 := stack_inputs E f n_accum s
    -- Call f
    match f.eval_checked sp s1.arg with
    | .error msg => .error (msg, s1.next)
    | .ok res =>
      let s2 := { s1 with res := res }
      -- Save output expressions
      let s3 := save_outputs E f s2
      -- Done?
      if r = 0 then .ok s3
      -- Copy function output to input
      else
        mapaccum_loop E f n_accum r (f.carried_patterns n_accum)
          (last_component E f n_accum (copy_outputs E n_accum s3))

/-- The part of `Function::mapaccum` from "Get symbolic expressions for inputs
and outputs" to the two loops of "Construct return": the input expressions,
the output expressions and the number of symbols created so far, or the
failure of a call of `f`. -/
def mapaccum_exprs (E : Env MX) (f : Function MX) (n : Nat) (n_accum : Nat) (next : Nat) :
    Except (String × Nat) (List MX × List MX × Nat) :=
  -- Get symbolic expressions for inputs and outputs
  let s0 : AccumVars MX :=
    { arg := f.mx_in, res := [], varg := List.replicate f.n_in [],
      vres := List.replicate f.n_out [], next := next }
  let s1 := push_accumulators E n_accum s0
  -- For each function call
  match mapaccum_loop E f n_accum n f.patterns_in s1 with
  | .error e => .error e
  | .ok s2 =>
    -- Construct return
    let arg := (List.range f.n_in).foldl
      (fun a i => a.set i (E.horzcat (s2.varg.getD i []))) s2.arg
    let res := (List.range f.n_out).foldl
      (fun r i => r.set i (E.horzcat (s2.vres.getD i []))) s2.res
    .ok (arg, res, s2.next)

/-- The function `Function::mapaccum(name, n, n_accum, opts)` (function.cpp, lines 402-444).
The last argument and the second component of the result are the number of
symbols created before and after the call. For a negative `n_accum` and
`n > 1` the C++ code indexes `arg` out of bounds; the model then runs as for
`n_accum = 0`. -/
def mapaccum (E : Env MX) (f : Function MX) (name : String) (n : Int) (n_accum : Int)
    (opts : Dict) (next : Nat) : Except String (Function MX) × Nat :=
  -- Shorthands
  let n_in := f.n_in
  let n_out := f.n_out
  -- Consistency checks
  if ¬ (n > 0) then (.error "mapaccum: n must be positive", next)
  else if ¬ (n_accum ≤ min (n_in : Int) (n_out : Int)) then
    (.error "mapaccum: too many accumulators", next)
  -- Quick return?
  else if n = 1 then (.ok f, next)
  else
    match mapaccum_exprs E f n.toNat n_accum.toNat next with
    | .error e => (.error e.1, e.2)
    | .ok r => (E.construct name r.1 r.2.1 f.name_in f.name_out opts, r.2.2)

/-! ## `Function::map(n, parallelization)` -/

/-- The local vectors of the unrolled branch of `Function::map`, and the
number of symbols created so far. -/
structure MapVars (MX : Type) where
  arg : List MX
  v : List (List MX)
  tmp : List MX
  next : Nat

/-- The body of the inner loop of "Construct symbolic inputs":
`tmp[k] = v[k][i] = MX::sym(name_in(i)+"_"+to_string(k), sparsity_in(i))`. -/
def map_symbols_body (E : Env MX) (f : Function MX) (i : Nat) (s : MapVars MX) (k : Nat) :
    MapVars MX :=
  let x := E.sym s.next (f.name_in_at i ++ "_" ++ toString k) (f.sparsity_in i)
  { s with v := s.v.modify (fun w => w.set i x) k, tmp := s.tmp.set k x, next := s.next + 1 }

/-- The inner loop of "Construct symbolic inputs": `for (int k=0; k<n; ++k)`. -/
def map_symbols (E : Env MX) (f : Function MX) (n : Nat) (i : Nat) (s : MapVars MX) :
    MapVars MX :=
  (List.range n).foldl (map_symbols_body E f i) s

/-- The body of the outer loop of "Construct symbolic inputs": the inner loop,
then `arg[i] = horzcat(tmp)`. -/
def map_inputs_body (E : Env MX) (f : Function MX) (n : Nat) (s : MapVars MX) (i : Nat) :
    MapVars MX :=
  let s1 := map_symbols E f n i s
  { s1 with arg := s1.arg.set i (E.horzcat s1.tmp) }

/-- The outer loop of "Construct symbolic inputs": `for (int i=0; i<arg.size(); ++i)`. -/
def map_inputs (E : Env MX) (f : Function MX) (n : Nat) (s : MapVars MX) : MapVars MX :=
  (List.range s.arg.length).foldl (map_inputs_body E f n) s

/-- The body of the inner loop of "Gather outputs": `tmp[k] = v[k][i]`. -/
def gather_body (E : Env MX) (v : List (List MX)) (i : Nat) (tmp : List MX) (k : Nat) :
    List MX :=
  tmp.set k ((v.getD k []).getD i E.null)

/-- The body of the outer loop of "Gather outputs": the inner loop
`for (int k=0; k<n; ++k)`, then `res[i] = horzcat(tmp)`. The state is the pair
of `res` and `tmp`. -/
def map_outputs_body (E : Env MX) (n : Nat) (v : List (List MX)) (s : List MX × List MX)
    (i : Nat) : List MX × List MX :=
  let tmp := (List.range n).foldl (gather_body E v i) s.2
  (s.1.set i (E.horzcat tmp), tmp)

/-- The outer loop of "Gather outputs": `for (int i=0; i<res.size(); ++i)`. -/
def map_outputs (E : Env MX) (n : Nat) (v : List (List MX)) (s : List MX × List MX) :
    List MX × List MX :=
  (List.range s.1.length).foldl (map_outputs_body E n v) s

/-- The function `Function::map(int n, const std::string& parallelization)` (function.cpp,
lines 517-550). The last argument and the second component of the result are
the number of symbols created before and after the call. -/
def map (E : Env MX) (f : Function MX) (n : Int) (parallelization : String) (next : Nat) :
    Except String (Function MX) × Nat :=
  -- Make sure not degenerate
  if ¬ (n > 0) then (.error "Degenerate map operation", next)
  -- Quick return if possible
  else if n = 1 then (.ok f, next)
  -- Unroll?
  else if parallelization = "unroll" then
    -- Construct symbolic inputs
    let arg : List MX := List.replicate f.n_in E.null
    let s := map_inputs E f n.toNat
      { arg := arg, v := List.replicate n.toNat arg, tmp := List.replicate n.toNat E.null,
        next := next }
    -- Evaluate
    let v := s.v.map f.eval
    -- Gather outputs
    let r := map_outputs E n.toNat v (List.replicate f.n_out E.null, s.tmp)
    -- Construct function
    (E.construct (f.name ++ "_" ++ toString n) s.arg r.1 f.name_in f.name_out [], s.next)
  else
    -- Create Map object
    (E.map_create parallelization f n, next)

/-! ## `Function::mapaccum` with explicit index lists -/

/-- Modelled from the spec: `inBounds(v, upper)` of std_vector_tools, which
function.cpp uses and does not define: every entry of `v` lies in
`[0, upper)`. -/
def inBounds (v : List Int) (upper : Int) : Bool :=
  v.all (fun x => decide (0 ≤ x) && decide (x < upper))

/-- Modelled from the spec: `isUnique(v)` of std_vector_tools: no entry of `v`
occurs twice. -/
def isUnique (v : List Int) : Bool := decide v.Nodup

/-- Modelled from the spec: `range(stop)` of std_vector_tools: the vector
`0, 1, ..., stop-1`. -/
def range (stop : Int) : List Int := (List.range stop.toNat).map Int.ofNat

/-- Modelled from the spec: `complement(v, size)` of std_vector_tools: the
indices of `[0, size)` that do not occur in `v`, in increasing order. -/
def complement (v : List Int) (size : Nat) : List Int :=
  ((List.range size).filter (fun (i : Nat) => decide (Int.ofNat i ∉ v))).map Int.ofNat

/-- Modelled from the spec: `lookupvector(v, size)` of std_vector_tools: a
vector of `size` entries, all `-1` at first, in which entry `v[i]` is set to
`i` for `i = 0, 1, ...` in turn. -/
def lookupvector (v : List Int) (size : Nat) : List Int :=
  (List.range v.length).foldl
    (fun lookup i => lookup.set (v.getD i 0).toNat (i : Int)) (List.replicate size (-1))

/-- The function `Function::mapaccum(name, n, accum_in, accum_out, opts)` with index lists
(function.cpp, lines 446-474). -/
def mapaccum_indices (E : Env MX) (f : Function MX) (name : String) (n : Int)
    (accum_in accum_out : List Int) (opts : Dict) (next : Nat) :
    Except String (Function MX) × Nat :=
  -- Shorthands
  let n_in := f.n_in
  let n_out := f.n_out
  -- Consistency checks
  if ¬ (inBounds accum_in n_in && isUnique accum_in) then
    (.error "inBounds(accum_in, n_in) && isUnique(accum_in)", next)
  else if ¬ (inBounds accum_out n_out && isUnique accum_out) then
    (.error "inBounds(accum_out, n_out) && isUnique(accum_out)", next)
  else if ¬ (accum_in.length = accum_out.length) then
    (.error "accum_in.size()==accum_out.size()", next)
  else
    let n_accum : Int := accum_in.length
    -- Quick return if no need to reorder
    if accum_in = range n_accum ∧ accum_out = range n_accum then
      mapaccum E f name n n_accum opts next
    else
      -- Need to do some reordering
      let temp_in := complement accum_in n_in
      let order_in := accum_in ++ temp_in
      let temp_out := complement accum_out n_out
      let order_out := accum_out ++ temp_out
      match E.slice f ("slice_" ++ name) order_in order_out [] with
      | .error e => (.error e, next)
      | .ok ret =>
        match mapaccum E ret ("mapacc_" ++ name) n n_accum opts next with
        | (.error e, next1) => (.error e, next1)
        | (.ok ret1, next1) =>
          (E.slice ret1 name (lookupvector order_in n_in) (lookupvector order_out n_out) opts,
            next1)

/-! ### Vocabulary of the specification of `map` -/

/-- The symbol that stands for input `i` in evaluation `k` of an `n`-fold
unrolled map, when `c` symbols existed before. -/
def map_sym (E : Env MX) (f : Function MX) (n c i k : Nat) : MX :=
  E.sym (c + i * n + k) (f.name_in_at i ++ "_" ++ toString k) (f.sparsity_in i)

/-- The inputs of the unrolled map: input `i` is the horizontal concatenation
of the `n` symbols of input `i`. -/
def map_unrolled_in (E : Env MX) (f : Function MX) (n c : Nat) : List MX :=
  (List.range f.n_in).map (fun i => E.horzcat ((List.range n).map (fun k => map_sym E f n c i k)))

/-- The arguments of evaluation `k` of the unrolled map: the `k`-th symbol of
every input. -/
def map_batch (E : Env MX) (f : Function MX) (n c k : Nat) : List MX :=
  (List.range f.n_in).map (fun i => map_sym E f n c i k)

/-- The outputs of the unrolled map: output `i` is the horizontal
concatenation over `k = 0..n-1` of the `i`-th output of `f` applied to the
arguments of evaluation `k`. -/
def map_unrolled_out (E : Env MX) (f : Function MX) (n c : Nat) : List MX :=
  (List.range f.n_out).map
    (fun i => E.horzcat ((List.range n).map (fun k => f.call (map_batch E f n c k) i)))

/-! ### Vocabulary of the specification of `mapaccum` -/

/-- What is fed to accumulator input `i` of the next call when output `i` of
the call at hand is `y`: `y` itself, unless the output has more columns than
the input, in which case it is the last piece of the horizontal split of `y`
at the offsets `0`, `size2_out(i) - size2_in(i)`, `size2_out(i)`. -/
def carried (E : Env MX) (f : Function MX) (i : Nat) (y : MX) : MX :=
  if f.size2_out i > f.size2_in i then
    (E.horzsplit y
      [0, (f.size2_out i : Int) - (f.size2_in i : Int), (f.size2_out i : Int)]).getLastD E.null
  else y

/-- Expressions in printed form: a set of collaborators in which an expression
is the text that denotes it and calling a node prints the call. A constructed
node has the name and the port names it is given; the printed form of an
expression carries no sparsity pattern, so its ports have the default one. -/
def printed : Env String where
  null := "MX()"
  sym id name _ := name ++ "#" ++ toString id
  horzcat xs := "horzcat(" ++ ", ".intercalate xs ++ ")"
  horzsplit x offset :=
    (List.range (offset.length - 1)).map
      (fun j => "horzsplit(" ++ x ++ ", " ++ toString offset ++ ")[" ++ toString j ++ "]")
  construct name arg res argn resn _ :=
    .ok { name := name
          ports_in := List.zipWith (fun nm x => { name := nm, sparsity := default, mx := x })
            argn arg
          ports_out := resn.map (fun nm => { name := nm, sparsity := default })
          call := fun a i =>
            "subst(" ++ res.getD i "MX()" ++ "; " ++ ", ".intercalate arg ++ " := " ++
              ", ".intercalate a ++ ")" }
  map_create par f n :=
    .ok { f with
          name := f.name ++ "_map"
          call := fun a i =>
            "Map(" ++ par ++ ", " ++ f.name ++ ", " ++ toString n ++ ")(" ++
              ", ".intercalate a ++ ")[" ++ toString i ++ "]" }
  slice f name order_in order_out _ :=
    .ok { name := name
          ports_in := order_in.filterMap (fun j => f.ports_in[j.toNat]?)
          ports_out := order_out.filterMap (fun j => f.ports_out[j.toNat]?)
          call := fun a i =>
            "slice(" ++ f.name ++ ", " ++ toString order_in ++ ", " ++ toString order_out ++
              ")(" ++ ", ".intercalate a ++ ")[" ++ toString i ++ "]" }

/-- A function `f` with inputs `x`, `u` of one column each and outputs `y` of
two columns and `z` of one column. -/
def sample_fn : Function String where
  name := "f"
  ports_in := [{ name := "x", sparsity := ⟨1, 1, [(0, 0)]⟩, mx := "x" },
               { name := "u", sparsity := ⟨1, 1, [(0, 0)]⟩, mx := "u" }]
  ports_out := [{ name := "y", sparsity := ⟨1, 2, [(0, 0), (0, 1)]⟩ },
                { name := "z", sparsity := ⟨1, 1, [(0, 0)]⟩ }]
  call := fun a i => "f(" ++ ", ".intercalate a ++ ")[" ++ toString i ++ "]"

/-- What C9 states of the index vectors built from the list `accum` of
accumulator ports of a function with `n` ports: `order`, the list followed by
its complement, is a permutation of `0, ..., n-1` that starts with `accum`, and
`lookupvector(order, n)` has `n` entries and is the inverse of `order`: it
sends `order[i]` to `i`, and `order` sends its entry `j` back to `j`. With a
slice showing at its port `i` the port `order[i]` of its source, the last
equation says that port `j` of the second slice is port `j` of the function
the first slice was taken of. -/
def Reorders (accum : List Int) (n : Nat) : Prop :=
  (accum ++ complement accum n).Perm (range n) ∧
  (accum ++ complement accum n).take accum.length = accum ∧
  (lookupvector (accum ++ complement accum n) n).length = n ∧
  (∀ i : Nat, i < n →
    (lookupvector (accum ++ complement accum n) n).getD
      ((accum ++ complement accum n).getD i 0).toNat (-1) = (i : Int)) ∧
  (∀ j : Nat, j < n →
    (accum ++ complement accum n).getD
      ((lookupvector (accum ++ complement accum n) n).getD j (-1)).toNat 0 = (j : Int))

/-! ### Vocabulary of the specification of the carried accumulator -/

/-- Modelled from the spec: the horizontal split of a matrix, given as the
list of its columns, at the column offsets `offset`: there are as many pieces
as there are offsets but one, and piece `j` holds the columns from `offset[j]`
up to and without `offset[j+1]`. The function `horzsplit` is used by
function.cpp and not defined there. -/
def split_columns {α : Type} (cols : List α) (offset : List Int) : List (List α) :=
  (List.range (offset.length - 1)).map (fun j =>
    (cols.drop (offset.getD j 0).toNat).take
      ((offset.getD (j + 1) 0).toNat - (offset.getD j 0).toNat))

/-! ## `Function::map` with reduced inputs and outputs -/

/-- The collaborators of the reduced map: those of `Env`, and the two
operations `repmat(x, n, m)` and `repsum(x, n, m)` of the matrix expression
algebra, which function.cpp uses and does not define. -/
structure ReduceEnv (MX : Type) extends Env MX where
  repmat : MX → Int → Int → MX
  repsum : MX → Int → Int → MX

/-- The body of the loop "Replace reduced inputs":
`arg[i] = mx_in(i); f_arg[i] = repmat(arg[i], 1, n)`. The state is the pair of
`arg` and `f_arg`. -/
def reduce_in_body (E : ReduceEnv MX) (f : Function MX) (n : Int) (s : List MX × List MX)
    (i : Int) : List MX × List MX :=
  let arg := s.1.set i.toNat (f.mx_in.getD i.toNat E.null)
  (arg, s.2.set i.toNat (E.repmat (arg.getD i.toNat E.null) 1 n))

/-- The body of the loop "Replace reduced outputs": `res[i] = repsum(res[i], 1, n)`. -/
def reduce_out_body (E : ReduceEnv MX) (n : Int) (res : List MX) (i : Int) : List MX :=
  res.set i.toNat (E.repsum (res.getD i.toNat E.null) 1 n)

/-- The function `Function::map(name, parallelization, n, reduce_in, reduce_out,
opts)` (function.cpp, lines 486-506). The options are not used by the code.
For an index that is negative or not below the number of ports the C++ code
indexes a vector out of bounds; no theorem covers that case. -/
def map_reduce (E : ReduceEnv MX) (f : Function MX) (name : String) (parallelization : String)
    (n : Int) (reduce_in reduce_out : List Int) (_opts : Dict) (next : Nat) :
    Except String (Function MX) × Nat :=
  -- Wrap in an MXFunction
  match map E.toEnv f n parallelization next with
  | (.error e, next1) => (.error e, next1)
  | (.ok g, next1) =>
    -- Start with the fully mapped inputs
    let arg := g.mx_in
    let f_arg := arg
    -- Replace reduced inputs
    let s := reduce_in.foldl (reduce_in_body E f n) (arg, f_arg)
    -- Get fully mapped outputs
    let res := g.eval s.2
    -- Replace reduced outputs
    let res := reduce_out.foldl (reduce_out_body E n) res
    -- Construct return
    (E.construct name s.1 res f.name_in f.name_out [], next1)

/-! ### Vocabulary of the specification of the reduced map -/

/-- The inputs of the reduced map of `f`, where `g` is the `n`-fold map of `f`:
an input in `reduce_in` is the unbatched input of `f`, any other input is the
batched input of `g`. -/
def reduced_arg (E : ReduceEnv MX) (f g : Function MX) (reduce_in : List Int) : List MX :=
  (List.range f.n_in).map (fun (i : Nat) =>
    if (i : Int) ∈ reduce_in then f.mx_in.getD i E.null else g.mx_in.getD i E.null)

/-- The arguments on which the `n`-fold map `g` of `f` is called: for an input
in `reduce_in` the unbatched input of `f` repeated `n` times horizontally, for
any other input the batched input of `g`. -/
def mapped_arg (E : ReduceEnv MX) (f g : Function MX) (n : Int) (reduce_in : List Int) :
    List MX :=
  (List.range f.n_in).map (fun (i : Nat) =>
    if (i : Int) ∈ reduce_in then E.repmat (f.mx_in.getD i E.null) 1 n
    else g.mx_in.getD i E.null)

/-- The outputs of the reduced map: an output in `reduce_out` is the sum of the
`n` horizontal blocks of the mapped output, any other output is the mapped
output. -/
def reduced_res (E : ReduceEnv MX) (f g : Function MX) (n : Int)
    (reduce_in reduce_out : List Int) : List MX :=
  (List.range f.n_out).map (fun (i : Nat) =>
    if (i : Int) ∈ reduce_out then E.repsum (g.call (mapped_arg E f g n reduce_in) i) 1 n
    else g.call (mapped_arg E f g n reduce_in) i)

/-- The printed collaborators, with printed `repmat` and `repsum`. -/
def printed_reduce : ReduceEnv String :=
  { printed with
    repmat := fun x n m => "repmat(" ++ x ++ ", " ++ toString n ++ ", " ++ toString m ++ ")"
    repsum := fun x n m => "repsum(" ++ x ++ ", " ++ toString n ++ ", " ++ toString m ++ ")" }

/-- The node that `Map::create("thread", sample_fn, 2)` yields with the printed
collaborators. -/
def sample_map : Function String :=
  { sample_fn with
    name := "f_map"
    call := fun a i =>
      "Map(thread, f, 2)(" ++ ", ".intercalate a ++ ")[" ++ toString i ++ "]" }

/-! ## `Function::construct` from a named mapping of expressions -/

/-- The loop `for (auto&& i : dict)` of `Function::construct(name, dict, argn,
resn, opts)`. The mapping `dict` is the list of its entries in the order of
iteration, that of the keys, and a `std::map` holds no key twice. The state is
the pair of `arg` and `res`; `find` yields the first position of a name. -/
def place_entries (argn resn : List String) :
    List (String × MX) → List MX × List MX → Except String (List MX × List MX)
  | [], s => .ok s
  | i :: rest, s =>
    if i.1 ∈ argn then
      -- Input expression
      place_entries argn resn rest (s.1.set (argn.indexOf i.1) i.2, s.2)
    else if i.1 ∈ resn then
      -- Output expression
      place_entries argn resn rest (s.1, s.2.set (resn.indexOf i.1) i.2)
    else
      -- Neither
      .error ("Unknown dictionary entry: '" ++ i.1 ++ "'")

/-- The function `Function::construct(name, dict, argn, resn, opts)`
(function.cpp, lines 186-206). -/
def construct_dict (E : Env MX) (name : String) (dict : List (String × MX))
    (argn resn : List String) (opts : Dict) : Except String (Function MX) :=
  match place_entries argn resn dict
      (List.replicate argn.length E.null, List.replicate resn.length E.null) with
  | .error e => .error e
  | .ok s => E.construct name s.1 s.2 argn resn opts

/-! ## `Function::_call` with named mappings -/

/-- Modelled from the spec: the index lookup `index_in(name)` of an input name,
absent from function.cpp: the position of the name among the input names, and
a failure when no input has the name. -/
def Function.index_in (f : Function MX) (name : String) : Except String Nat :=
  if name ∈ f.name_in then .ok (f.name_in.indexOf name)
  else .error ("index_in: could not find entry \"" ++ name ++ "\"")

/-- The accessor `Function::name_out(int ind)`. -/
def Function.name_out_at (f : Function MX) (ind : Nat) : String := f.name_out.getD ind ""

/-- The assignment `m[key] = value` of a `std::map`, kept as a list of entries
without repeated keys; the order of the entries is not modelled. -/
def map_assign {M : Type} (m : List (String × M)) (key : String) (value : M) :
    List (String × M) :=
  (key, value) :: m.filter (fun e => e.1 != key)

/-- The loop "Get default inputs": `for (int i=0; i<arg_v.size(); ++i) arg_v[i] = default_in(i)`. -/
def default_inputs {M : Type} (default_in : Nat → M) (arg_v : List M) : List M :=
  (List.range arg_v.length).foldl (fun v i => v.set i (default_in i)) arg_v

/-- The loop "Assign provided inputs":
`for (auto&& e : arg) arg_v.at(index_in(e.first)) = e.second`; both `index_in`
and `at` may throw. -/
def assign_inputs {M : Type} (f : Function MX) :
    List (String × M) → List M → Except String (List M)
  | [], arg_v => .ok arg_v
  | e :: rest, arg_v =>
    match f.index_in e.1 with
    | .error msg => .error msg
    | .ok ind =>
      if ind < arg_v.length then assign_inputs f rest (arg_v.set ind e.2)
      else .error "vector::at: out of range"

/-- The loop "Save to map": `for (int i=0; i<res_v.size(); ++i) res[name_out(i)] = res_v[i]`,
run over the indices given; `name_out(i)` throws for an index that is not
below `n_out`. -/
def save_to_map {M : Type} (f : Function MX) (null : M) (res_v : List M) :
    List Nat → List (String × M) → Except String (List (String × M))
  | [], res => .ok res
  | i :: rest, res =>
    if i < f.n_out then
      save_to_map f null res_v rest (map_assign res (f.name_out_at i) (res_v.getD i null))
    else .error "vector::at: out of range"

/-- The function `Function::_call(const std::map<string, M>& arg,
std::map<string, M>& res, bool always_inline, bool never_inline)`
(function.cpp, lines 907-930), for an element type `M` whose default value is
`null`. The conversion `default_in` of the default value of a port to `M` and
the call `call` of the node on ordered arguments are parameters. The result is
the mapping `res` after the call. -/
def _call {M : Type} (f : Function MX) (null : M) (default_in : Nat → M)
    (call : List M → Bool → Bool → Except String (List M))
    (arg : List (String × M)) (_res : List (String × M)) (always_inline never_inline : Bool) :
    Except String (List (String × M)) :=
  -- Get default inputs
  let arg_v := default_inputs default_in (List.replicate f.n_in null)
  -- Assign provided inputs
  match assign_inputs f arg arg_v with
  | .error msg => .error msg
  | .ok arg_v =>
    -- Make call
    match call arg_v always_inline never_inline with
    | .error msg => .error msg
    | .ok res_v =>
      -- Save to map: `res.clear()`, then the loop
      save_to_map f null res_v (List.range res_v.length) []

/-- A function like the sample function whose two outputs are both named `y`. -/
def twin_fn : Function String :=
  { sample_fn with
    ports_out := [{ name := "y", sparsity := ⟨1, 1, [(0, 0)]⟩ },
                  { name := "y", sparsity := ⟨1, 1, [(0, 0)]⟩ }] }

/-! ## `Function::buf_in` and `Function::buf_out` on ordered containers

A container is the list of its elements, of a type `D`. A pointer is a value of
a type `P` with a null pointer `null`. The helper `get_ptr` of std_vector_tools,
which function.cpp uses and does not define, is a parameter: `get_ptr i v` is
the pointer that `get_ptr` yields for the container at position `i` of the list
when it holds `v`. The sizes `sz_arg()` and `sz_res()` are parameters too. -/

/-- Modelled from the spec: the accessor `nnz_in(int ind)`, the number of
structural nonzeros of the sparsity pattern of input `ind`. -/
def Function.nnz_in (f : Function MX) (ind : Nat) : Nat := (f.sparsity_in ind).nonzeros.length

/-- Modelled from the spec: the accessor `nnz_out(int ind)`, the number of
structural nonzeros of the sparsity pattern of output `ind`. -/
def Function.nnz_out (f : Function MX) (ind : Nat) : Nat :=
  (f.sparsity_out ind).nonzeros.length

/-- The loop of `Function::buf_in(VecArg)`, run over the indices given:
`casadi_assert(arg_it->size()==nnz_in(i)); buf_arg[i] = get_ptr(*arg_it++)`. -/
def buf_in_loop {D P : Type} (f : Function MX) (get_ptr : Nat → List D → P)
    (arg : List (List D)) : List Nat → List P → Except String (List P)
  | [], buf_arg => .ok buf_arg
  | i :: rest, buf_arg =>
    if ¬ ((arg.getD i []).length = f.nnz_in i) then .error "arg_it->size()==nnz_in(i)"
    else buf_in_loop f get_ptr arg rest (buf_arg.set i (get_ptr i (arg.getD i [])))

/-- The function `Function::buf_in(VecArg arg)` (function.cpp, lines 277-286). -/
def buf_in {D P : Type} (f : Function MX) (sz_arg : Nat) (null : P)
    (get_ptr : Nat → List D → P) (arg : List (List D)) : Except String (List P) :=
  if ¬ (arg.length = f.n_in) then .error "arg.size()==n_in()"
  else buf_in_loop f get_ptr arg (List.range arg.length) (List.replicate sz_arg null)

/-- The member `resize(n)` of `std::vector`: the first `n` elements are kept
and missing elements are value-initialised to `x`. -/
def resize {α : Type} (v : List α) (n : Nat) (x : α) : List α :=
  v.take n ++ List.replicate (n - v.length) x

/-- The body of the loop of `Function::buf_out(VecRes)`:
`res_it->resize(nnz_out(i)); buf_res[i] = get_ptr(*res_it++)`. The state is the
pair of `res` and `buf_res`. -/
def buf_out_body {D P : Type} (f : Function MX) (zero : D) (get_ptr : Nat → List D → P)
    (s : List (List D) × List P) (i : Nat) : List (List D) × List P :=
  let res := List.modify (fun v => resize v (f.nnz_out i) zero) i s.1
  (res, s.2.set i (get_ptr i (res.getD i [])))

/-- The function `Function::buf_out(VecRes res)` (function.cpp, lines
288-297). The list `res` is passed by reference; the result is its state after
the call and the array returned. -/
def buf_out {D P : Type} (f : Function MX) (sz_res : Nat) (null : P) (zero : D)
    (get_ptr : Nat → List D → P) (res : List (List D)) : List (List D) × List P :=
  let res := resize res f.n_out []
  (List.range res.length).foldl (buf_out_body f zero get_ptr)
    (res, List.replicate sz_res null)

/-! ## `Function::proceed_to`

The input stream `std::istream` of the C++ standard library is modelled over a
fixed text: the characters of the stream, the read position, the state bits
`eofbit` and `failbit`, and whether the buffer of the stream supports
positioning (a file or a string does, a pipe or a terminal does not). The
classification `std::isspace` is taken in the "C" locale. -/

/-- An input stream over a fixed text. -/
structure IStream where
  data : List Char
  pos : Nat
  eofbit : Bool
  failbit : Bool
  seekable : Bool
deriving DecidableEq

/-- The member `good()`: no state bit is set. -/
def IStream.good (s : IStream) : Bool := !s.eofbit && !s.failbit

/-- The characters from the read position on. -/
def IStream.rest (s : IStream) : List Char := s.data.drop s.pos

/-- The node made by `new Switch(name, f, f_def)`: the class `Switch` is not
part of function.cpp, and the node is kept as the arguments of its
constructor. -/
structure SwitchNode (MX : Type) where
  name : String
  f : List (Function MX)
  f_def : Function MX

/-- Modelled from the spec: the function that a switch evaluates for the
selector value `k`, which the class `Switch`, absent from function.cpp,
decides: the candidate of index `k` of the ordered list, or the default for
any selector out of range. -/
def SwitchNode.select (s : SwitchNode MX) (k : Int) : Function MX :=
  if 0 ≤ k ∧ k < s.f.length then s.f.getD k.toNat s.f_def else s.f_def

/-- The function `Function::conditional(name, f, f_def, opts)` (function.cpp,
lines 562-568). The parameter `construct` stands for `ret->construct(opts)` on
the handle that owns the new node. -/
def conditional {R : Type} (construct : SwitchNode MX → Dict → R) (name : String)
    (f : List (Function MX)) (f_def : Function MX) (opts : Dict) : R :=
  construct { name := name, f := f, f_def := f_def } opts

/-- The function `Function::if_else(name, f_true, f_false, opts)` (function.cpp,
lines 582-588); `vector<Function>(1, f_false)` is the vector of one copy of
`f_false`. -/
def if_else {R : Type} (construct : SwitchNode MX → Dict → R) (name : String)
    (f_true f_false : Function MX) (opts : Dict) : R :=
  construct { name := name, f := List.replicate 1 f_false, f_def := f_true } opts

/-! # Theorems -/

/-! ## Properties of name validation -/

theorem isalpha_iff (c : Char) : isalpha c = true ↔ IsLetter c := by
  simp only [isalpha, Char.isAlpha, Char.isUpper, Char.isLower, IsLetter, Bool.or_eq_true,
    Bool.and_eq_true, decide_eq_true_eq, Char.le_def]
  constructor
  · rintro (h | h)
    · exact Or.inr h
    · exact Or.inl h
  · rintro (h | h)
    · exact Or.inr h
    · exact Or.inl h

theorem isalnum_iff (c : Char) : isalnum c = true ↔ IsLetter c ∨ IsDigit c := by
  have h := isalpha_iff c
  simp only [isalpha] at h
  simp only [isalnum, Char.isAlphanum, Bool.or_eq_true, h]
  simp only [Char.isDigit, IsDigit, Bool.and_eq_true, decide_eq_true_eq, Char.le_def]
  rfl

theorem underscore_not_alnum : isalnum '_' = false := by decide

theorem not_letter_underscore : ¬ IsLetter '_' := by
  rw [← isalpha_iff]; decide

theorem noDouble_cons (c : Char) (l : List Char) :
    NoDoubleUnderscore (c :: l) ↔
      (c = '_' → l.head? ≠ some '_') ∧ NoDoubleUnderscore l := by
  constructor
  · intro h
    refine ⟨fun hc => ?_, fun i hi => ?_⟩
    · have := h 0 (by simp [hc])
      cases l <;> simp_all
    · have := h (i + 1) (by simpa using hi)
      simpa using this
  · rintro ⟨h0, h⟩ i hi
    cases i with
    | zero =>
      have hc : c = '_' := by simpa using hi
      have := h0 hc
      cases l <;> simp_all
    | succ j =>
      have := h j (by simpa using hi)
      simpa using this

theorem check_rest_iff (l : List Char) :
    check_rest l = true ↔
      (∀ c ∈ l, IsLetter c ∨ IsDigit c ∨ c = '_') ∧ NoDoubleUnderscore l := by
  induction l with
  | nil => simp [check_rest, NoDoubleUnderscore]
  | cons c rest ih =>
    rw [noDouble_cons]
    by_cases hc : c = '_'
    · subst hc
      cases rest with
      | nil => simp [check_rest, NoDoubleUnderscore]
      | cons d rest2 =>
        have hstep : check_rest ('_' :: d :: rest2) =
            (if d = '_' then false else check_rest (d :: rest2)) := by
          rw [check_rest]; simp
        rw [hstep]
        by_cases hd : d = '_'
        · simp [hd]
        · rw [if_neg hd, ih]
          simp [hd]
    · have hstep : check_rest (c :: rest) = (if !isalnum c then false else check_rest rest) := by
        cases rest <;> simp [check_rest, hc]
      rw [hstep]
      by_cases ha : isalnum c = true
      · have hl := (isalnum_iff c).1 ha
        simp only [ha, Bool.not_true, Bool.false_eq_true, if_false, ih]
        simp only [List.mem_cons, forall_eq_or_imp, hc, false_implies, true_and]
        constructor
        · rintro ⟨h1, h2⟩
          exact ⟨⟨by tauto, h1⟩, h2⟩
        · rintro ⟨⟨_, h1⟩, h2⟩
          exact ⟨h1, h2⟩
      · have hl : ¬ (IsLetter c ∨ IsDigit c) := fun h => ha ((isalnum_iff c).2 h)
        simp only [Bool.not_eq_true] at ha
        simp only [ha, Bool.not_false, if_true, Bool.false_eq_true, false_iff]
        rintro ⟨h1, _⟩
        have := h1 c (List.mem_cons_self _ _)
        tauto

theorem check_name_mk_cons (c : Char) (rest : List Char) :
    check_name ⟨c :: rest⟩ = true ↔
      ((⟨c :: rest⟩ : String) ≠ "null" ∧ (⟨c :: rest⟩ : String) ≠ "jac" ∧
        (⟨c :: rest⟩ : String) ≠ "hess") ∧ isalpha c = true ∧ check_rest rest = true := by
  simp only [check_name, keywords, List.isEmpty_cons, Bool.false_eq_true, if_false,
    List.any_cons, List.any_nil, Bool.or_false, Bool.or_eq_true, beq_iff_eq]
  by_cases hk : ((⟨c :: rest⟩ : String) = "null" ∨ (⟨c :: rest⟩ : String) = "jac" ∨
      (⟨c :: rest⟩ : String) = "hess")
  · rw [if_pos hk]
    simp only [Bool.false_eq_true, false_iff]
    tauto
  · rw [if_neg hk]
    by_cases ha : isalpha c = true
    · simp only [ha, Bool.not_true, Bool.false_eq_true, if_false, true_and]
      constructor
      · intro h; exact ⟨by tauto, h⟩
      · intro h; exact h.2
    · simp only [Bool.not_eq_true] at ha
      simp [ha]

/-- C1. `check_name s` holds exactly when `s` is non-empty, is none of the
keywords `null`, `jac`, `hess`, starts with a letter, has only letters, digits
and underscores after its first character, and has no underscore immediately
followed by another underscore; it accepts `f1` and `a_b` and rejects the empty
name, `1a`, `a__b` and `null`. -/
theorem check_name_iff_valid :
    (∀ s : String, check_name s = true ↔
      (s ≠ "" ∧ (s ≠ "null" ∧ s ≠ "jac" ∧ s ≠ "hess") ∧
        (∃ c, s.data.head? = some c ∧ IsLetter c) ∧
        (∀ (i : Nat) (c : Char), 0 < i → s.data[i]? = some c →
          IsLetter c ∨ IsDigit c ∨ c = '_') ∧
        (∀ i : Nat, s.data[i]? = some '_' → s.data[i + 1]? ≠ some '_'))) ∧
    check_name "f1" = true ∧ check_name "a_b" = true ∧
    check_name "" = false ∧ check_name "1a" = false ∧
    check_name "a__b" = false ∧ check_name "null" = false := by
  refine ⟨?_, by decide, by decide, by decide, by decide, by decide, by decide⟩
  rintro ⟨l⟩
  cases l with
  | nil =>
    have : (⟨[]⟩ : String) = "" := rfl
    simp [check_name, this]
  | cons c rest =>
    rw [check_name_mk_cons, isalpha_iff, check_rest_iff]
    have hne : (⟨c :: rest⟩ : String) ≠ "" := by
      intro h
      have := congrArg String.data h
      simp at this
    have hshift : (∀ (i : Nat) (d : Char), 0 < i → (c :: rest)[i]? = some d →
          IsLetter d ∨ IsDigit d ∨ d = '_') ↔
        (∀ d ∈ rest, IsLetter d ∨ IsDigit d ∨ d = '_') := by
      constructor
      · intro h d hd
        obtain ⟨j, hj⟩ := List.mem_iff_getElem?.1 hd
        exact h (j + 1) d (Nat.succ_pos _) (by simpa using hj)
      · intro h i d hi hd
        cases i with
        | zero => exact absurd hi (Nat.lt_irrefl _)
        | succ j =>
          exact h d (List.mem_iff_getElem?.2 ⟨j, by simpa using hd⟩)
    have hnd := noDouble_cons c rest
    simp only [NoDoubleUnderscore] at hnd
    simp only [List.head?_cons, Option.some.injEq, exists_eq_left', hshift]
    constructor
    · rintro ⟨hk, hc, hall, hrest⟩
      refine ⟨hne, hk, hc, hall, hnd.2 ⟨fun h => ?_, hrest⟩⟩
      exact absurd (h ▸ hc) not_letter_underscore
    · rintro ⟨_, hk, hc, hall, hd⟩
      exact ⟨hk, hc, hall, (hnd.1 hd).2⟩

/-! ## Properties of name sanitisation -/

theorem isalpha_isalnum (c : Char) (h : isalpha c = true) : isalnum c = true :=
  (isalnum_iff c).2 (Or.inl ((isalpha_iff c).1 h))

theorem collapse_runs_cons (c : Char) (rest : List Char) :
    collapse_runs (c :: rest) =
      if isalnum c then c :: collapse_runs rest
      else '_' :: collapse_runs (rest.dropWhile (fun d => !isalnum d)) := by
  rw [collapse_runs]

/-- The loop of `fix_name` writes the collapsed text behind what the stream
already holds; with the flag set, a leading run of separators is swallowed. -/
theorem foldl_fix_step (l : List Char) (acc : List Char) (b : Bool) :
    (l.foldl fix_step (acc, b)).1 =
      acc ++ collapse_runs (if b then l.dropWhile (fun d => !isalnum d) else l) := by
  induction l generalizing acc b with
  | nil => cases b <;> simp [collapse_runs]
  | cons c l ih =>
    rw [List.foldl_cons]
    by_cases hc : isalnum c = true
    · have hs : fix_step (acc, b) c = (acc ++ [c], false) := by simp [fix_step, hc]
      rw [hs, ih]
      cases b <;> simp [List.dropWhile_cons, hc, collapse_runs_cons]
    · simp only [Bool.not_eq_true] at hc
      cases b with
      | false =>
        have hs : fix_step (acc, false) c = (acc ++ ['_'], true) := by simp [fix_step, hc]
        rw [hs, ih]
        simp [hc, collapse_runs_cons]
      | true =>
        have hs : fix_step (acc, true) c = (acc, true) := by simp [fix_step, hc]
        rw [hs, ih]
        simp [List.dropWhile_cons, hc]

theorem head_dropWhile_alnum (l : List Char) (d : Char)
    (h : (l.dropWhile (fun d => !isalnum d)).head? = some d) : isalnum d = true := by
  induction l with
  | nil => simp at h
  | cons c l ih =>
    rw [List.dropWhile_cons] at h
    by_cases hc : isalnum c = true
    · simp [hc] at h
      exact h ▸ hc
    · simp only [Bool.not_eq_true] at hc
      simp only [hc, Bool.not_false, if_true] at h
      exact ih h

theorem check_rest_collapse_runs (l : List Char) : check_rest (collapse_runs l) = true := by
  induction l using collapse_runs.induct with
  | case1 => simp [collapse_runs, check_rest]
  | case2 c rest hc ih =>
    rw [collapse_runs_cons, if_pos hc]
    have hne : c ≠ '_' := fun h => by rw [h] at hc; exact absurd hc (by decide)
    have hstep : check_rest (c :: collapse_runs rest) =
        (if !isalnum c then false else check_rest (collapse_runs rest)) := by
      cases collapse_runs rest <;> simp [check_rest, hne]
    rw [hstep, ih]
    simp [hc]
  | case3 c rest hc ih =>
    rw [collapse_runs_cons, if_neg hc]
    generalize hX : rest.dropWhile (fun d => !isalnum d) = X at ih
    cases X with
    | nil => simp [collapse_runs, check_rest]
    | cons d X2 =>
      have hd : isalnum d = true := head_dropWhile_alnum rest d (by rw [hX]; rfl)
      have hne : d ≠ '_' := fun h => by rw [h] at hd; exact absurd hd (by decide)
      rw [collapse_runs_cons, if_pos hd] at ih ⊢
      have hstep : check_rest ('_' :: d :: collapse_runs X2) =
          (if d = '_' then false else check_rest (d :: collapse_runs X2)) := by
        rw [check_rest]; simp
      rw [hstep, if_neg hne, ih]

theorem fix_keywords_eq (t : String) :
    fix_keywords t =
      t ++ (if t = "null" ∨ t = "jac" ∨ t = "hess" then "1" else "") := by
  simp only [fix_keywords, keywords, List.foldl_cons, List.foldl_nil, beq_iff_eq]
  by_cases h1 : t = "null"
  · subst h1; decide
  · by_cases h2 : t = "jac"
    · subst h2; decide
    · by_cases h3 : t = "hess"
      · subst h3; decide
      · simp [h1, h2, h3]

/-- What `fix_name` does with a non-empty name that `check_name` rejects. -/
theorem fix_name_cons (c : Char) (rest : List Char)
    (hrej : check_name ⟨c :: rest⟩ = false) :
    fix_name ⟨c :: rest⟩ =
      fix_keywords ⟨(if !isalpha c then ['a'] else []) ++ collapse_runs (c :: rest)⟩ := by
  simp only [fix_name, hrej, Bool.false_eq_true, if_false, List.isEmpty_cons,
    List.head?_cons, foldl_fix_step]

theorem check_name_fix_keywords (x : Char) (X : List Char)
    (hx : isalpha x = true) (hX : check_rest X = true) :
    check_name (fix_keywords ⟨x :: X⟩) = true := by
  rw [fix_keywords_eq]
  by_cases hk : ((⟨x :: X⟩ : String) = "null" ∨ (⟨x :: X⟩ : String) = "jac" ∨
      (⟨x :: X⟩ : String) = "hess")
  · rw [if_pos hk]
    rcases hk with h | h | h <;> rw [h] <;> decide
  · rw [if_neg hk, String.append_empty, check_name_mk_cons]
    exact ⟨by tauto, hx, hX⟩

/-- C2. For every string, the name `fix_name` returns is accepted by
`check_name`. -/
theorem check_name_fix_name (s : String) : check_name (fix_name s) = true := by
  by_cases hv : check_name s = true
  · simp only [fix_name, hv, if_true]
  · simp only [Bool.not_eq_true] at hv
    obtain ⟨l⟩ := s
    cases l with
    | nil => decide
    | cons c rest =>
      rw [fix_name_cons c rest hv]
      by_cases hc : isalpha c = true
      · have hcn := isalpha_isalnum c hc
        simp only [hc, Bool.not_true, Bool.false_eq_true, if_false, List.nil_append,
          collapse_runs_cons, hcn, if_true]
        exact check_name_fix_keywords c _ hc (check_rest_collapse_runs rest)
      · simp only [Bool.not_eq_true] at hc
        simp only [hc, Bool.not_false, if_true, List.singleton_append]
        exact check_name_fix_keywords 'a' _ (by decide) (check_rest_collapse_runs (c :: rest))

/-- C3. For a non-empty name that `check_name` rejects, `fix_name` returns an
`a` when the name does not start with a letter, followed by the name with every
maximal run of non-alphanumeric characters replaced by one underscore, followed
by a `1` when the text built so far is `null`, `jac` or `hess`; the empty name
becomes `unnamed`, and `1a-b` becomes `a1a_b`. -/
theorem fix_name_eq_spec :
    (∀ s : String, s ≠ "" → check_name s = false → fix_name s = fix_name_spec s) ∧
    fix_name "" = "unnamed" ∧ fix_name "1a-b" = "a1a_b" := by
  refine ⟨?_, by decide, by decide⟩
  rintro ⟨l⟩ hne hrej
  cases l with
  | nil => exact absurd rfl hne
  | cons c rest =>
    rw [fix_name_cons c rest hrej, fix_keywords_eq]
    simp only [fix_name_spec, List.head?_cons]
    have hlead : (⟨(if !isalpha c then ['a'] else []) ++ collapse_runs (c :: rest)⟩ : String) =
        (if IsLetter c then "" else "a") ++ String.mk (collapse_runs (c :: rest)) := by
      by_cases hc : isalpha c = true
      · have hl := (isalpha_iff c).1 hc
        simp only [hc, Bool.not_true, Bool.false_eq_true, if_false, hl, if_true]
        rfl
      · have hl : ¬ IsLetter c := fun h => hc ((isalpha_iff c).2 h)
        simp only [Bool.not_eq_true] at hc
        simp only [hc, Bool.not_false, if_true, hl, if_false]
        rfl
    rw [hlead]

/-- The statement of C3 applied to the name `1a-b`. -/
theorem fix_name_eq_spec_witness :
    "1a-b" ≠ "" ∧ check_name "1a-b" = false ∧ fix_name "1a-b" = fix_name_spec "1a-b" :=
  ⟨by decide, by decide, fix_name_eq_spec.1 "1a-b" (by decide) (by decide)⟩

/-! ## Vectors written element by element

A C++ vector of known length is described as `(List.range N).map g`; the
lemmas below compute the effect of an assignment to one element. -/

theorem getElem?_range_map {α : Type} (N : Nat) (g : Nat → α) (j : Nat) :
    ((List.range N).map g)[j]? = if j < N then some (g j) else none := by
  by_cases h : j < N
  · simp [h]
  · simp [h]
    exact Nat.le_of_not_lt h

theorem set_range_map {α : Type} (N : Nat) (g : Nat → α) (i : Nat) (x : α) :
    ((List.range N).map g).set i x = (List.range N).map (fun j => if j = i then x else g j) := by
  apply List.ext_getElem?
  intro j
  rw [List.getElem?_set', getElem?_range_map, getElem?_range_map]
  by_cases h : j < N <;> by_cases hij : i = j
  · subst hij; simp [h]
  · have : ¬ j = i := fun e => hij e.symm
    simp [h, hij, this]
  · subst hij; simp [h]
  · simp [h, hij]

theorem modify_range_map {α : Type} (N : Nat) (g : Nat → α) (h : α → α) (i : Nat) :
    List.modify h i ((List.range N).map g) =
      (List.range N).map (fun j => if j = i then h (g j) else g j) := by
  apply List.ext_getElem?
  intro j
  rw [List.getElem?_modify, getElem?_range_map, getElem?_range_map]
  by_cases hj : j < N <;> by_cases hij : i = j
  · subst hij; simp [hj]
  · have : ¬ j = i := fun e => hij e.symm
    simp [hj, hij, this]
  · subst hij; simp [hj]
  · simp [hj, hij]

theorem getD_range_map {α : Type} (N : Nat) (g : Nat → α) (i : Nat) (d : α) :
    ((List.range N).map g).getD i d = if i < N then g i else d := by
  rw [List.getD_eq_getElem?_getD, getElem?_range_map]
  by_cases h : i < N <;> simp [h]

theorem range_map_congr {α : Type} (N : Nat) (g g' : Nat → α)
    (h : ∀ i, i < N → g i = g' i) : (List.range N).map g = (List.range N).map g' := by
  apply List.map_congr_left
  intro i hi
  exact h i (List.mem_range.1 hi)

theorem eq_range_map_getD {α : Type} (l : List α) (d : α) :
    l = (List.range l.length).map (fun i => l.getD i d) := by
  apply List.ext_getElem?
  intro j
  rw [getElem?_range_map]
  by_cases h : j < l.length
  · simp [h, List.getD_eq_getElem?_getD]
  · simp only [h, if_false]
    exact List.getElem?_eq_none (Nat.le_of_not_lt h)

theorem replicate_eq_range_map {α : Type} (N : Nat) (a : α) :
    List.replicate N a = (List.range N).map (fun _ => a) := by
  apply List.ext_getElem?
  intro j
  rw [getElem?_range_map, List.getElem?_replicate]

theorem map_symbols_range (E : Env MX) (f : Function MX) (i N : Nat) (A : List MX)
    (V : Nat → List MX) (T : Nat → MX) (c M : Nat) :
    (List.range M).foldl (map_symbols_body E f i)
        { arg := A, v := (List.range N).map V, tmp := (List.range N).map T, next := c } =
      { arg := A,
        v := (List.range N).map (fun k =>
          if k < M then
            (V k).set i (E.sym (c + k) (f.name_in_at i ++ "_" ++ toString k) (f.sparsity_in i))
          else V k),
        tmp := (List.range N).map (fun k =>
          if k < M then E.sym (c + k) (f.name_in_at i ++ "_" ++ toString k) (f.sparsity_in i)
          else T k),
        next := c + M } := by
  induction M with
  | zero => simp
  | succ M ih =>
    rw [List.range_succ, List.foldl_append, ih, List.foldl_cons, List.foldl_nil]
    simp only [map_symbols_body, modify_range_map, set_range_map, MapVars.mk.injEq, true_and]
    refine ⟨?_, ?_, by omega⟩
    · apply range_map_congr
      intro k _
      by_cases h1 : k = M
      · subst h1; simp
      · by_cases h2 : k < M
        · have : k < M + 1 := by omega
          simp [h1, h2, this]
        · have : ¬ k < M + 1 := by omega
          simp [h1, h2, this]
    · apply range_map_congr
      intro k _
      by_cases h1 : k = M
      · subst h1; simp
      · by_cases h2 : k < M
        · have : k < M + 1 := by omega
          simp [h1, h2, this]
        · have : ¬ k < M + 1 := by omega
          simp [h1, h2, this]

theorem map_inputs_range (E : Env MX) (f : Function MX) (n Nin c : Nat) (T0 : Nat → MX)
    (I : Nat) :
    ∃ T : Nat → MX,
      (List.range I).foldl (map_inputs_body E f n)
          { arg := (List.range Nin).map (fun _ => E.null),
            v := (List.range n).map (fun _ => (List.range Nin).map (fun _ => E.null)),
            tmp := (List.range n).map T0, next := c } =
        { arg := (List.range Nin).map (fun i =>
            if i < I then E.horzcat ((List.range n).map (fun k => map_sym E f n c i k))
            else E.null),
          v := (List.range n).map (fun k =>
            (List.range Nin).map (fun i => if i < I then map_sym E f n c i k else E.null)),
          tmp := (List.range n).map T, next := c + I * n } := by
  induction I with
  | zero => exact ⟨T0, by simp⟩
  | succ I ih =>
    obtain ⟨T, hT⟩ := ih
    refine ⟨fun k => map_sym E f n c I k, ?_⟩
    rw [List.range_succ, List.foldl_append, hT, List.foldl_cons, List.foldl_nil]
    simp only [map_inputs_body, map_symbols, map_symbols_range, set_range_map,
      MapVars.mk.injEq]
    have htmp : (List.range n).map (fun k =>
          if k < n then
            E.sym (c + I * n + k) (f.name_in_at I ++ "_" ++ toString k) (f.sparsity_in I)
          else T k) = (List.range n).map (fun k => map_sym E f n c I k) := by
      apply range_map_congr
      intro k hk
      simp [hk, map_sym]
    refine ⟨?_, ?_, htmp, by rw [Nat.succ_mul]; omega⟩
    · rw [htmp]
      apply range_map_congr
      intro i _
      by_cases h1 : i = I
      · subst h1; simp
      · by_cases h2 : i < I
        · have : i < I + 1 := by omega
          simp [h1, h2, this]
        · have : ¬ i < I + 1 := by omega
          simp [h1, h2, this]
    · apply range_map_congr
      intro k hk
      simp only [hk, if_true]
      apply range_map_congr
      intro i _
      by_cases h1 : i = I
      · subst h1; simp [map_sym]
      · by_cases h2 : i < I
        · have : i < I + 1 := by omega
          simp [h1, h2, this]
        · have : ¬ i < I + 1 := by omega
          simp [h1, h2, this]

theorem gather_range (E : Env MX) (v : List (List MX)) (i N : Nat) (T : Nat → MX) (M : Nat) :
    (List.range M).foldl (gather_body E v i) ((List.range N).map T) =
      (List.range N).map (fun k => if k < M then (v.getD k []).getD i E.null else T k) := by
  induction M with
  | zero => simp
  | succ M ih =>
    rw [List.range_succ, List.foldl_append, ih, List.foldl_cons, List.foldl_nil]
    simp only [gather_body, set_range_map]
    apply range_map_congr
    intro k _
    by_cases h1 : k = M
    · subst h1; simp
    · by_cases h2 : k < M
      · have : k < M + 1 := by omega
        simp [h1, h2, this]
      · have : ¬ k < M + 1 := by omega
        simp [h1, h2, this]

theorem map_outputs_range (E : Env MX) (v : List (List MX)) (n Nout : Nat) (T0 : Nat → MX)
    (I : Nat) :
    ∃ T : Nat → MX,
      (List.range I).foldl (map_outputs_body E n v)
          ((List.range Nout).map (fun _ => E.null), (List.range n).map T0) =
        ((List.range Nout).map (fun i =>
            if i < I then
              E.horzcat ((List.range n).map (fun k => (v.getD k []).getD i E.null))
            else E.null),
          (List.range n).map T) := by
  induction I with
  | zero => exact ⟨T0, by simp⟩
  | succ I ih =>
    obtain ⟨T, hT⟩ := ih
    refine ⟨fun k => (v.getD k []).getD I E.null, ?_⟩
    rw [List.range_succ, List.foldl_append, hT, List.foldl_cons, List.foldl_nil]
    simp only [map_outputs_body, gather_range, set_range_map, Prod.mk.injEq]
    have htmp : (List.range n).map (fun k =>
          if k < n then (v.getD k []).getD I E.null else T k) =
        (List.range n).map (fun k => (v.getD k []).getD I E.null) := by
      apply range_map_congr
      intro k hk
      simp [hk]
    refine ⟨?_, htmp⟩
    rw [htmp]
    apply range_map_congr
    intro i _
    by_cases h1 : i = I
    · subst h1; simp
    · by_cases h2 : i < I
      · have : i < I + 1 := by omega
        simp [h1, h2, this]
      · have : ¬ i < I + 1 := by omega
        simp [h1, h2, this]

/-- C5. For `n ≥ 2`, `map(n, "unroll")` hands to the constructor of functions
the name `name() + "_" + to_string(n)`, the port names of `f`, as input `i` the
horizontal concatenation of `n` new symbols with the sparsity of input `i` of
`f`, and as output `i` the horizontal concatenation over `k = 0..n-1` of the
`i`-th output of `f` applied to the `k`-th symbols of all inputs; there are as
many inputs and outputs as `f` has. -/
theorem map_unroll_eq (E : Env MX) (f : Function MX) (n : Int) (c : Nat) (hn : 2 ≤ n) :
    map E f n "unroll" c =
        (E.construct (f.name ++ "_" ++ toString n) (map_unrolled_in E f n.toNat c)
            (map_unrolled_out E f n.toNat c) f.name_in f.name_out [],
          c + f.n_in * n.toNat) ∧
      (map_unrolled_in E f n.toNat c).length = f.n_in ∧
      (map_unrolled_out E f n.toNat c).length = f.n_out := by
  refine ⟨?_, by simp [map_unrolled_in], by simp [map_unrolled_out]⟩
  have h0 : n > 0 := by omega
  have h1 : ¬ n = 1 := by omega
  obtain ⟨T, hT⟩ := map_inputs_range E f n.toNat f.n_in c (fun _ => E.null) f.n_in
  have hin : map_inputs E f n.toNat
      { arg := List.replicate f.n_in E.null,
        v := List.replicate n.toNat (List.replicate f.n_in E.null),
        tmp := List.replicate n.toNat E.null, next := c } =
      { arg := map_unrolled_in E f n.toNat c,
        v := (List.range n.toNat).map (fun k => map_batch E f n.toNat c k),
        tmp := (List.range n.toNat).map T, next := c + f.n_in * n.toNat } := by
    simp only [map_inputs, replicate_eq_range_map, List.length_map, List.length_range]
    rw [hT]
    simp only [MapVars.mk.injEq, map_unrolled_in, map_batch, and_true]
    refine ⟨?_, ?_⟩
    · apply range_map_congr
      intro i hi
      simp [hi]
    · apply range_map_congr
      intro k _
      apply range_map_congr
      intro i hi
      simp [hi]
  obtain ⟨T2, hT2⟩ := map_outputs_range E
    ((List.range n.toNat).map (fun k => f.eval (map_batch E f n.toNat c k))) n.toNat f.n_out T
    f.n_out
  have hout : map_outputs E n.toNat
      ((List.range n.toNat).map (fun k => f.eval (map_batch E f n.toNat c k)))
      (List.replicate f.n_out E.null, (List.range n.toNat).map T) =
      (map_unrolled_out E f n.toNat c, (List.range n.toNat).map T2) := by
    simp only [map_outputs, replicate_eq_range_map, List.length_map, List.length_range]
    rw [hT2]
    simp only [Prod.mk.injEq, map_unrolled_out, and_true]
    apply range_map_congr
    intro i hi
    simp only [hi, if_true]
    congr 1
    apply range_map_congr
    intro k hk
    rw [getD_range_map, if_pos hk, Function.eval, getD_range_map, if_pos hi]
  simp only [map, h0, not_true_eq_false, if_false, h1, if_true, hin, List.map_map]
  have hcomp : (f.eval ∘ fun k => map_batch E f n.toNat c k) =
      fun k => f.eval (map_batch E f n.toNat c k) := rfl
  rw [hcomp, hout]

/-- The statement of C5 applied to the sample function with three evaluations. -/
theorem map_unroll_eq_witness :
    (2 : Int) ≤ 3 ∧
      map printed sample_fn 3 "unroll" 0 =
        (printed.construct (sample_fn.name ++ "_" ++ toString (3 : Int))
            (map_unrolled_in printed sample_fn (3 : Int).toNat 0)
            (map_unrolled_out printed sample_fn (3 : Int).toNat 0)
            sample_fn.name_in sample_fn.name_out [],
          0 + sample_fn.n_in * (3 : Int).toNat) ∧
      (map_unrolled_in printed sample_fn (3 : Int).toNat 0).length = sample_fn.n_in ∧
      (map_unrolled_out printed sample_fn (3 : Int).toNat 0).length = sample_fn.n_out :=
  ⟨by decide, map_unroll_eq printed sample_fn 3 0 (by decide)⟩

/-! ## The loops of `mapaccum` -/

theorem copy_outputs_range (E : Env MX) (Nin : Nat) (A : Nat → MX) (R : List MX)
    (VA VR : List (List MX)) (c M : Nat) :
    (List.range M).foldl (copy_outputs_body E)
        { arg := (List.range Nin).map A, res := R, varg := VA, vres := VR, next := c } =
      { arg := (List.range Nin).map (fun i => if i < M then R.getD i E.null else A i),
        res := R, varg := VA, vres := VR, next := c } := by
  induction M with
  | zero => simp
  | succ M ih =>
    rw [List.range_succ, List.foldl_append, ih, List.foldl_cons, List.foldl_nil]
    simp only [copy_outputs_body, set_range_map, AccumVars.mk.injEq, true_and, and_true]
    apply range_map_congr
    intro i _
    by_cases h1 : i = M
    · subst h1; simp
    · by_cases h2 : i < M
      · have : i < M + 1 := by omega
        simp [h1, h2, this]
      · have : ¬ i < M + 1 := by omega
        simp [h1, h2, this]

theorem last_component_range (E : Env MX) (f : Function MX) (Nin : Nat) (A : Nat → MX)
    (R : List MX) (VA VR : List (List MX)) (c M : Nat) (hM : M ≤ Nin) :
    (List.range M).foldl (last_component_body E f)
        { arg := (List.range Nin).map A, res := R, varg := VA, vres := VR, next := c } =
      { arg := (List.range Nin).map (fun i => if i < M then carried E f i (A i) else A i),
        res := R, varg := VA, vres := VR, next := c } := by
  induction M with
  | zero => simp
  | succ M ih =>
    rw [List.range_succ, List.foldl_append, ih (by omega), List.foldl_cons, List.foldl_nil]
    have hlt : M < Nin := by omega
    by_cases hsz : f.size2_out M > f.size2_in M
    · have hsz' : (f.size2_out M : Int) > (f.size2_in M : Int) := by exact_mod_cast hsz
      simp only [last_component_body, hsz', if_true, set_range_map, getD_range_map, hlt,
        AccumVars.mk.injEq, true_and, and_true, lt_self_iff_false, if_false]
      apply range_map_congr
      intro i _
      by_cases h1 : i = M
      · subst h1; simp [carried, hsz]
      · by_cases h2 : i < M
        · have : i < M + 1 := by omega
          simp [h1, h2, this]
        · have : ¬ i < M + 1 := by omega
          simp [h1, h2, this]
    · have hsz' : ¬ (f.size2_out M : Int) > (f.size2_in M : Int) := by
        intro h; exact hsz (by exact_mod_cast h)
      simp only [last_component_body, hsz', if_false, AccumVars.mk.injEq, true_and, and_true]
      apply range_map_congr
      intro i _
      by_cases h1 : i = M
      · subst h1; simp [carried, hsz]
      · by_cases h2 : i < M
        · have : i < M + 1 := by omega
          simp [h1, h2, this]
        · have : ¬ i < M + 1 := by omega
          simp [h1, h2, this]

theorem foldl_set_range_map {α : Type} (N : Nat) (A G : Nat → α) (M : Nat) :
    (List.range M).foldl (fun a i => a.set i (G i)) ((List.range N).map A) =
      (List.range N).map (fun i => if i < M then G i else A i) := by
  induction M with
  | zero => simp
  | succ M ih =>
    rw [List.range_succ, List.foldl_append, ih, List.foldl_cons, List.foldl_nil, set_range_map]
    apply range_map_congr
    intro i _
    by_cases h1 : i = M
    · subst h1; simp
    · by_cases h2 : i < M
      · have : i < M + 1 := by omega
        simp [h1, h2, this]
      · have : ¬ i < M + 1 := by omega
        simp [h1, h2, this]

/-- C6. `map(1, parallelization)` returns the handle it is called on, for
every function and every parallelization, without creating a symbol. -/
theorem map_one (E : Env MX) (f : Function MX) (parallelization : String) (c : Nat) :
    map E f 1 parallelization c = (.ok f, c) := by
  simp [map]

/-- C7, as amended. `mapaccum(name, 1, k, opts)` returns the handle it is
called on, whatever the name and the options, for every accumulator count `k`
that is at most `min(n_in, n_out)`. -/
theorem mapaccum_one (E : Env MX) (f : Function MX) (name : String) (k : Int) (opts : Dict)
    (c : Nat) (hk : k ≤ min (f.n_in : Int) (f.n_out : Int)) :
    mapaccum E f name 1 k opts c = (.ok f, c) := by
  simp [mapaccum, hk]

/-- The statement of C7, as amended, applied to the sample function with two
accumulators. -/
theorem mapaccum_one_witness :
    (2 : Int) ≤ min (sample_fn.n_in : Int) (sample_fn.n_out : Int) ∧
      mapaccum printed sample_fn "F" 1 2 [] 0 = (.ok sample_fn, 0) :=
  ⟨by decide, mapaccum_one printed sample_fn "F" 2 [] 0 (by decide)⟩

/-- C7, as stated, fails: with three accumulators on the sample function,
which has two inputs and two outputs, `mapaccum(name, 1, 3, opts)` fails and
does not return the handle. -/
theorem mapaccum_one_too_many :
    mapaccum printed sample_fn "F" 1 3 [] 0 = (.error "mapaccum: too many accumulators", 0) ∧
      mapaccum printed sample_fn "F" 1 3 [] 0 ≠ (.ok sample_fn, 0) := by
  have h : mapaccum printed sample_fn "F" 1 3 [] 0 =
      (.error "mapaccum: too many accumulators", 0) := by
    simp [mapaccum, sample_fn, Function.n_in, Function.n_out]
  refine ⟨h, ?_⟩
  rw [h]
  intro h2
  have h3 := congrArg Prod.fst h2
  cases h3

/-- C8. `map` fails for every `n ≤ 0` and every parallelization; `mapaccum`
fails for every `n ≤ 0` and for every accumulator count above
`min(n_in, n_out)`; in each case the result is the failure alone, the same
whatever the collaborators are, and no symbol has been created. -/
theorem degenerate_requests_fail :
    (∀ (MX : Type) (E : Env MX) (f : Function MX) (n : Int) (parallelization : String)
        (c : Nat), n ≤ 0 → map E f n parallelization c = (.error "Degenerate map operation", c)) ∧
    (∀ (MX : Type) (E : Env MX) (f : Function MX) (name : String) (n k : Int) (opts : Dict)
        (c : Nat), n ≤ 0 →
        mapaccum E f name n k opts c = (.error "mapaccum: n must be positive", c)) ∧
    (∀ (MX : Type) (E : Env MX) (f : Function MX) (name : String) (n k : Int) (opts : Dict)
        (c : Nat), k > min (f.n_in : Int) (f.n_out : Int) →
        mapaccum E f name n k opts c = (.error "mapaccum: n must be positive", c) ∨
        mapaccum E f name n k opts c = (.error "mapaccum: too many accumulators", c)) := by
  refine ⟨?_, ?_, ?_⟩
  · intro MX E f n par c hn
    have h : ¬ n > 0 := by omega
    simp [map, h]
  · intro MX E f name n k opts c hn
    have h : ¬ n > 0 := by omega
    simp [mapaccum, h]
  · intro MX E f name n k opts c hk
    have hk' : ¬ k ≤ min (f.n_in : Int) (f.n_out : Int) := by omega
    by_cases h : n > 0
    · right
      simp only [mapaccum, h, not_true_eq_false, if_false, hk', not_false_eq_true, if_true]
    · left
      simp only [mapaccum, h, not_false_eq_true, if_true]

/-- The statement of C8 applied to the sample function: `map` with `n = 0`,
`mapaccum` with `n = -1`, and `mapaccum` with three accumulators. -/
theorem degenerate_requests_fail_witness :
    map printed sample_fn 0 "unroll" 5 = (.error "Degenerate map operation", 5) ∧
    mapaccum printed sample_fn "F" (-1) 1 [] 5 = (.error "mapaccum: n must be positive", 5) ∧
    (mapaccum printed sample_fn "F" 4 3 [] 5 = (.error "mapaccum: n must be positive", 5) ∨
      mapaccum printed sample_fn "F" 4 3 [] 5 = (.error "mapaccum: too many accumulators", 5)) :=
  ⟨degenerate_requests_fail.1 String printed sample_fn 0 "unroll" 5 (by decide),
   degenerate_requests_fail.2.1 String printed sample_fn "F" (-1) 1 [] 5 (by decide),
   degenerate_requests_fail.2.2 String printed sample_fn "F" 4 3 [] 5 (by decide)⟩

/-! ## `mapaccum` with explicit index lists -/

theorem inBounds_iff (v : List Int) (upper : Int) :
    inBounds v upper = true ↔ ∀ x ∈ v, 0 ≤ x ∧ x < upper := by
  simp [inBounds]

theorem isUnique_iff (v : List Int) : isUnique v = true ↔ v.Nodup := by
  simp [isUnique]

theorem range_natCast (k : Nat) : range (k : Int) = (List.range k).map Int.ofNat := by
  simp [range]

theorem length_range (k : Nat) : (range (k : Int)).length = k := by
  simp [range]

theorem nodup_range (k : Nat) : (range (k : Int)).Nodup := by
  rw [range_natCast]
  exact (List.nodup_range k).map (fun a b h => Int.ofNat.inj h)

theorem mem_range_iff (k : Nat) (x : Int) : x ∈ range (k : Int) ↔ 0 ≤ x ∧ x < k := by
  rw [range_natCast]
  simp only [List.mem_map, List.mem_range]
  constructor
  · rintro ⟨a, ha, rfl⟩
    exact ⟨Int.ofNat_nonneg a, Int.ofNat_lt.2 ha⟩
  · rintro ⟨h0, h1⟩
    refine ⟨x.toNat, by omega, ?_⟩
    show (x.toNat : Int) = x
    omega

/-- C10. `mapaccum` with index lists fails, before any slicing or
construction and without creating a symbol, whenever `accum_in` has an entry
outside `[0, n_in)` or a repeated entry, whenever `accum_out` has an entry
outside `[0, n_out)` or a repeated entry, and whenever the two lists differ in
length; when both lists are `0, ..., n_accum-1` with `n_accum` at most `n_in`
and `n_out`, the call is the base `mapaccum(name, n, n_accum, opts)`. -/
theorem mapaccum_indices_checks :
    (∀ (MX : Type) (f : Function MX) (name : String) (n : Int)
        (accum_in accum_out : List Int) (opts : Dict) (c : Nat),
        ((∃ x ∈ accum_in, x < 0 ∨ (f.n_in : Int) ≤ x) ∨ ¬ accum_in.Nodup ∨
          (∃ x ∈ accum_out, x < 0 ∨ (f.n_out : Int) ≤ x) ∨ ¬ accum_out.Nodup ∨
          accum_in.length ≠ accum_out.length) →
        ∃ msg, ∀ (E : Env MX),
          mapaccum_indices E f name n accum_in accum_out opts c = (.error msg, c)) ∧
    (∀ (MX : Type) (E : Env MX) (f : Function MX) (name : String) (n : Int) (n_accum : Nat)
        (opts : Dict) (c : Nat), n_accum ≤ f.n_in → n_accum ≤ f.n_out →
        mapaccum_indices E f name n (range n_accum) (range n_accum) opts c =
          mapaccum E f name n n_accum opts c) := by
  refine ⟨?_, ?_⟩
  · intro MX f name n ain aout opts c h
    by_cases h1 : (inBounds ain f.n_in && isUnique ain) = true
    · by_cases h2 : (inBounds aout f.n_out && isUnique aout) = true
      · by_cases h3 : ain.length = aout.length
        · exfalso
          rw [Bool.and_eq_true, inBounds_iff, isUnique_iff] at h1 h2
          rcases h with ⟨x, hx, hb⟩ | hn | ⟨x, hx, hb⟩ | hn | hl
          · have := h1.1 x hx; omega
          · exact hn h1.2
          · have := h2.1 x hx; omega
          · exact hn h2.2
          · exact hl h3
        · exact ⟨"accum_in.size()==accum_out.size()", fun E2 => by
            simp [mapaccum_indices, h1, h2, h3]⟩
      · exact ⟨"inBounds(accum_out, n_out) && isUnique(accum_out)", fun E2 => by
          simp [mapaccum_indices, h1, h2]⟩
    · exact ⟨"inBounds(accum_in, n_in) && isUnique(accum_in)", fun E2 => by
        simp [mapaccum_indices, h1]⟩
  · intro MX E f name n k opts c hk1 hk2
    have h1 : (inBounds (range k) f.n_in && isUnique (range k)) = true := by
      rw [Bool.and_eq_true, inBounds_iff, isUnique_iff]
      refine ⟨fun x hx => ?_, nodup_range k⟩
      have := (mem_range_iff k x).1 hx
      omega
    have h2 : (inBounds (range k) f.n_out && isUnique (range k)) = true := by
      rw [Bool.and_eq_true, inBounds_iff, isUnique_iff]
      refine ⟨fun x hx => ?_, nodup_range k⟩
      have := (mem_range_iff k x).1 hx
      omega
    simp only [mapaccum_indices, h1, h2, not_true_eq_false, if_false, length_range, and_self,
      if_true]

/-- The statement of C10 applied to the sample function: a repeated index in
`accum_in` fails, and the index lists `[0]`, `[0]` give the base `mapaccum`. -/
theorem mapaccum_indices_checks_witness :
    (∃ msg, ∀ (E : Env String),
      mapaccum_indices E sample_fn "F" 3 [1, 1] [0, 1] [] 0 = (.error msg, 0)) ∧
    mapaccum_indices printed sample_fn "F" 3 (range 1) (range 1) [] 0 =
      mapaccum printed sample_fn "F" 3 1 [] 0 :=
  ⟨mapaccum_indices_checks.1 String sample_fn "F" 3 [1, 1] [0, 1] [] 0
      (Or.inr (Or.inl (by decide))),
   mapaccum_indices_checks.2 String printed sample_fn "F" 3 1 [] 0 (by decide) (by decide)⟩

theorem complement_eq_filter (v : List Int) (n : Nat) :
    complement v n = (range (n : Int)).filter (fun x => !decide (x ∈ v)) := by
  rw [range_natCast, List.filter_map]
  simp only [complement]
  congr 1
  apply List.filter_congr
  intro i _
  simp

theorem order_perm (v : List Int) (n : Nat) (hb : ∀ x ∈ v, 0 ≤ x ∧ x < (n : Int))
    (hu : v.Nodup) : (v ++ complement v n).Perm (range (n : Int)) := by
  have h1 : ((range (n : Int)).filter (fun x => decide (x ∈ v))).Perm v := by
    rw [List.perm_ext_iff_of_nodup ((nodup_range n).filter _) hu]
    intro x
    simp only [List.mem_filter, mem_range_iff, decide_eq_true_eq]
    exact ⟨fun h => h.2, fun h => ⟨hb x h, h⟩⟩
  have h2 := List.filter_append_perm (fun x => decide (x ∈ v)) (range (n : Int))
  rw [complement_eq_filter]
  exact (List.Perm.append_right _ h1.symm).trans h2

theorem index_lt (v : List Int) (n : Nat) (hb : ∀ x ∈ v, 0 ≤ x ∧ x < (n : Int)) (i : Nat)
    (hi : i < v.length) : (v.getD i 0).toNat < n := by
  rw [List.getD_eq_getElem v 0 hi]
  have := hb v[i] (List.getElem_mem hi)
  omega

theorem index_inj (v : List Int) (n : Nat) (hb : ∀ x ∈ v, 0 ≤ x ∧ x < (n : Int))
    (hu : v.Nodup) (i j : Nat) (hi : i < v.length) (hj : j < v.length)
    (h : (v.getD i 0).toNat = (v.getD j 0).toNat) : i = j := by
  rw [List.getD_eq_getElem v 0 hi, List.getD_eq_getElem v 0 hj] at h
  have h1 := hb v[i] (List.getElem_mem hi)
  have h2 := hb v[j] (List.getElem_mem hj)
  have h3 : v[i] = v[j] := by omega
  exact (hu.getElem_inj_iff).1 h3

/-- The loop of `lookupvector`, run over the first `M` entries of `v`. -/
theorem lookupvector_fold (v : List Int) (n : Nat) (hb : ∀ x ∈ v, 0 ≤ x ∧ x < (n : Int))
    (hu : v.Nodup) (M : Nat) (hM : M ≤ v.length) :
    ((List.range M).foldl
        (fun lookup i => lookup.set (v.getD i 0).toNat (i : Int))
        (List.replicate n (-1))).length = n ∧
    ∀ i : Nat, i < M →
      ((List.range M).foldl
          (fun lookup i => lookup.set (v.getD i 0).toNat (i : Int))
          (List.replicate n (-1))).getD (v.getD i 0).toNat (-1) = (i : Int) := by
  induction M with
  | zero => simp
  | succ M ih =>
    obtain ⟨hlen, hget⟩ := ih (by omega)
    rw [List.range_succ, List.foldl_append, List.foldl_cons, List.foldl_nil]
    refine ⟨by rw [List.length_set, hlen], ?_⟩
    intro i hi
    rw [List.getD_eq_getElem?_getD]
    by_cases h : i = M
    · subst h
      rw [List.getElem?_set_self (by rw [hlen]; exact index_lt v n hb i (by omega))]
      rfl
    · have hne : (v.getD M 0).toNat ≠ (v.getD i 0).toNat := by
        intro he
        exact h (index_inj v n hb hu i M (by omega) (by omega) he.symm)
      rw [List.getElem?_set_ne hne, ← List.getD_eq_getElem?_getD]
      exact hget i (by omega)

theorem lookupvector_order (v : List Int) (n : Nat) (hp : v.Perm (range (n : Int))) :
    (lookupvector v n).length = n ∧
    (∀ i : Nat, i < n → (lookupvector v n).getD (v.getD i 0).toNat (-1) = (i : Int)) ∧
    (∀ j : Nat, j < n → v.getD ((lookupvector v n).getD j (-1)).toNat 0 = (j : Int)) := by
  have hb : ∀ x ∈ v, 0 ≤ x ∧ x < (n : Int) := fun x hx =>
    (mem_range_iff n x).1 (hp.subset hx)
  have hu : v.Nodup := hp.nodup_iff.2 (nodup_range n)
  have hl : v.length = n := by rw [hp.length_eq, length_range]
  obtain ⟨hlen, hget⟩ := lookupvector_fold v n hb hu v.length (Nat.le_refl _)
  refine ⟨hlen, fun i hi => hget i (by omega), fun j hj => ?_⟩
  have hmem : (j : Int) ∈ v := hp.symm.subset ((mem_range_iff n j).2 ⟨by omega, by omega⟩)
  obtain ⟨i, hi, hij⟩ := List.mem_iff_getElem.1 hmem
  have hvi : v.getD i 0 = (j : Int) := by rw [List.getD_eq_getElem v 0 hi, hij]
  have h1 := hget i hi
  rw [hvi, Int.toNat_ofNat] at h1
  show v.getD ((lookupvector v n).getD j (-1)).toNat 0 = (j : Int)
  have h2 : (lookupvector v n).getD j (-1) = (i : Int) := h1
  rw [h2, Int.toNat_ofNat, hvi]

theorem reorders_of_valid (accum : List Int) (n : Nat)
    (hb : ∀ x ∈ accum, 0 ≤ x ∧ x < (n : Int)) (hu : accum.Nodup) : Reorders accum n := by
  have hp := order_perm accum n hb hu
  obtain ⟨h1, h2, h3⟩ := lookupvector_order (accum ++ complement accum n) n hp
  exact ⟨hp, List.take_left _ _, h1, h2, h3⟩

/-- C9. For index lists `accum_in`, `accum_out` that are free of duplicates and
within `[0, n_in)` and `[0, n_out)`: `order_in`, which is `accum_in` followed
by its complement, is a permutation of `0, ..., n_in-1` whose first entries are
`accum_in`, and `lookupvector(order_in, n_in)` is its inverse, and likewise for
the outputs; and when the lists have the same length and are not both
`0, ..., n_accum-1`, the code slices `f` with `order_in`, `order_out`, applies
the base `mapaccum` with `n_accum` accumulators, and slices the result with the
two inverse vectors. -/
theorem mapaccum_indices_reorder (E : Env MX) (f : Function MX) (name : String) (n : Int)
    (accum_in accum_out : List Int) (opts : Dict) (c : Nat)
    (hbi : ∀ x ∈ accum_in, 0 ≤ x ∧ x < (f.n_in : Int)) (hui : accum_in.Nodup)
    (hbo : ∀ x ∈ accum_out, 0 ≤ x ∧ x < (f.n_out : Int)) (huo : accum_out.Nodup) :
    Reorders accum_in f.n_in ∧ Reorders accum_out f.n_out ∧
    (accum_in.length = accum_out.length →
      ¬ (accum_in = range accum_in.length ∧ accum_out = range accum_in.length) →
      mapaccum_indices E f name n accum_in accum_out opts c =
        match E.slice f ("slice_" ++ name) (accum_in ++ complement accum_in f.n_in)
            (accum_out ++ complement accum_out f.n_out) [] with
        | .error e => (.error e, c)
        | .ok ret =>
          match mapaccum E ret ("mapacc_" ++ name) n accum_in.length opts c with
          | (.error e, c1) => (.error e, c1)
          | (.ok ret1, c1) =>
            (E.slice ret1 name (lookupvector (accum_in ++ complement accum_in f.n_in) f.n_in)
                (lookupvector (accum_out ++ complement accum_out f.n_out) f.n_out) opts,
              c1)) := by
  refine ⟨reorders_of_valid accum_in f.n_in hbi hui,
    reorders_of_valid accum_out f.n_out hbo huo, ?_⟩
  intro hlen hre
  have h1 : (inBounds accum_in f.n_in && isUnique accum_in) = true := by
    rw [Bool.and_eq_true, inBounds_iff, isUnique_iff]
    exact ⟨hbi, hui⟩
  have h2 : (inBounds accum_out f.n_out && isUnique accum_out) = true := by
    rw [Bool.and_eq_true, inBounds_iff, isUnique_iff]
    exact ⟨hbo, huo⟩
  simp only [mapaccum_indices, h1, h2, hlen, hre, not_true_eq_false, if_false]
  simp only [← hlen, hre, if_false]

/-- The statement of C9 applied to the sample function with the accumulator
input `u` (index 1) and the accumulator output `y` (index 0). -/
theorem mapaccum_indices_reorder_witness :
    Reorders [1] sample_fn.n_in ∧ Reorders [0] sample_fn.n_out ∧
      mapaccum_indices printed sample_fn "F" 2 [1] [0] [] 0 =
        match printed.slice sample_fn ("slice_" ++ "F") ([1] ++ complement [1] sample_fn.n_in)
            ([0] ++ complement [0] sample_fn.n_out) [] with
        | .error e => (.error e, 0)
        | .ok ret =>
          match mapaccum printed ret ("mapacc_" ++ "F") 2 ([1] : List Int).length [] 0 with
          | (.error e, c1) => (.error e, c1)
          | (.ok ret1, c1) =>
            (printed.slice ret1 "F" (lookupvector ([1] ++ complement [1] sample_fn.n_in)
                  sample_fn.n_in)
                (lookupvector ([0] ++ complement [0] sample_fn.n_out) sample_fn.n_out) [],
              c1) :=
  ⟨(mapaccum_indices_reorder printed sample_fn "F" 2 [1] [0] [] 0 (by decide) (by decide)
      (by decide) (by decide)).1,
   (mapaccum_indices_reorder printed sample_fn "F" 2 [1] [0] [] 0 (by decide) (by decide)
      (by decide) (by decide)).2.1,
   (mapaccum_indices_reorder printed sample_fn "F" 2 [1] [0] [] 0 (by decide) (by decide)
      (by decide) (by decide)).2.2 (by decide) (by decide)⟩

/-! ## The value carried to the next iteration of `mapaccum` -/

/-- The two statements "Copy function output to input" and "Ony get last
component" of the main loop of `mapaccum`, run on a state whose `arg` has
`n_in` entries. -/
theorem feed_back_arg (E : Env MX) (f : Function MX) (k : Nat) (hk : k ≤ f.n_in)
    (s : AccumVars MX) (hs : s.arg.length = f.n_in) :
    (last_component E f k (copy_outputs E k s)).arg =
      (List.range f.n_in).map (fun i =>
        if i < k then carried E f i (s.res.getD i E.null) else s.arg.getD i E.null) := by
  have harg : s.arg = (List.range f.n_in).map (fun i => s.arg.getD i E.null) := by
    have h := eq_range_map_getD s.arg E.null
    rw [hs] at h
    exact h
  have hst : s = { arg := (List.range f.n_in).map (fun i => s.arg.getD i E.null),
                   res := s.res, varg := s.varg, vres := s.vres, next := s.next } := by
    cases s
    simp only [AccumVars.mk.injEq, and_true, true_and] at harg ⊢
    exact harg
  rw [hst, copy_outputs, copy_outputs_range, last_component,
    last_component_range E f f.n_in _ _ _ _ _ k hk]
  simp only
  rw [← harg]
  apply range_map_congr
  intro i _
  by_cases h : i < k
  · simp [h]
  · simp [h]

/-- C11. In `mapaccum`, after a call of `f` on `a`, the value of accumulator
input `i < n_accum` for the next iteration is: when `size2_out(i) >
size2_in(i)`, the last piece of the horizontal split of output `i` at the
offsets `0, size2_out(i) - size2_in(i), size2_out(i)`, and output `i` itself
otherwise; the other entries of `arg` are left alone. In the first case the
offsets are non-decreasing and lie in `[0, size2_out(i)]`, and the last piece
of a matrix of `size2_out(i)` columns split at these offsets is its last
`size2_in(i)` columns. -/
theorem carried_last_columns (E : Env MX) (f : Function MX) (k : Nat) (hk1 : k ≤ f.n_in)
    (hk2 : k ≤ f.n_out) (s : AccumVars MX) (hs : s.arg.length = f.n_in) (a : List MX)
    (hres : s.res = f.eval a) (i : Nat) (hi : i < k) :
    ((last_component E f k (copy_outputs E k s)).arg.getD i E.null =
        if f.size2_out i > f.size2_in i then
          (E.horzsplit (f.call a i)
            [0, (f.size2_out i : Int) - (f.size2_in i : Int), (f.size2_out i : Int)]).getLastD
            E.null
        else f.call a i) ∧
      (∀ j : Nat, k ≤ j →
        (last_component E f k (copy_outputs E k s)).arg.getD j E.null = s.arg.getD j E.null) ∧
      (f.size2_out i > f.size2_in i →
        List.Pairwise (fun x y : Int => x ≤ y)
            [0, (f.size2_out i : Int) - (f.size2_in i : Int), (f.size2_out i : Int)] ∧
          (∀ x ∈ [0, (f.size2_out i : Int) - (f.size2_in i : Int), (f.size2_out i : Int)],
            0 ≤ x ∧ x ≤ (f.size2_out i : Int)) ∧
          ∀ (α : Type) (cols : List α), cols.length = f.size2_out i →
            (split_columns cols
                [0, (f.size2_out i : Int) - (f.size2_in i : Int), (f.size2_out i : Int)]).getLastD
              [] = cols.drop (f.size2_out i - f.size2_in i) ∧
            (cols.drop (f.size2_out i - f.size2_in i)).length = f.size2_in i) := by
  refine ⟨?_, ?_, ?_⟩
  · rw [feed_back_arg E f k hk1 s hs, getD_range_map]
    have h1 : i < f.n_in := by omega
    have h2 : i < f.n_out := by omega
    simp only [h1, hi, if_true, hres, Function.eval, getD_range_map, h2, carried]
  · intro j hj
    rw [feed_back_arg E f k hk1 s hs, getD_range_map]
    have h : ¬ j < k := by omega
    by_cases hjn : j < f.n_in
    · simp [h, hjn]
    · simp only [hjn, if_false]
      rw [List.getD_eq_getElem?_getD, List.getElem?_eq_none (by omega)]
      rfl
  · intro hgt
    refine ⟨?_, ?_, ?_⟩
    · simp only [List.pairwise_cons, List.mem_cons, List.mem_singleton, forall_eq_or_imp,
        forall_eq, List.not_mem_nil, false_implies, implies_true, List.Pairwise.nil, and_true]
      omega
    · intro x hx
      simp only [List.mem_cons, List.mem_singleton, List.not_mem_nil, or_false] at hx
      rcases hx with rfl | rfl | rfl <;> omega
    · intro α cols hlen
      have e1 : ((f.size2_out i : Int) - (f.size2_in i : Int)).toNat =
          f.size2_out i - f.size2_in i := by omega
      have e2 : ((f.size2_out i : Int)).toNat = f.size2_out i := by omega
      refine ⟨?_, by rw [List.length_drop, hlen]; omega⟩
      simp only [split_columns, List.length_cons, List.length_nil, Nat.reduceAdd,
        Nat.add_one_sub_one, List.range_succ, List.range_zero, List.nil_append,
        List.cons_append, List.map_cons, List.map_nil, List.getLastD_cons, List.getLastD_nil,
        List.getD_cons_zero, List.getD_cons_succ, e1, e2]
      apply List.take_of_length_le
      rw [List.length_drop, hlen]

/-- The statement of C11 applied to the sample function with one accumulator,
whose output `y` has two columns and whose input `x` has one, in the state
reached after the call of `f` on `x`, `u`. -/
theorem carried_last_columns_witness :
    sample_fn.size2_out 0 > sample_fn.size2_in 0 ∧
      ((last_component printed sample_fn 1
          (copy_outputs printed 1
            { arg := ["x", "u"], res := sample_fn.eval ["x", "u"], varg := [], vres := [],
              next := 0 })).arg.getD 0 printed.null =
        if sample_fn.size2_out 0 > sample_fn.size2_in 0 then
          (printed.horzsplit (sample_fn.call ["x", "u"] 0)
            [0, (sample_fn.size2_out 0 : Int) - (sample_fn.size2_in 0 : Int),
              (sample_fn.size2_out 0 : Int)]).getLastD printed.null
        else sample_fn.call ["x", "u"] 0) ∧
      ((split_columns ["c0", "c1"]
            [0, (sample_fn.size2_out 0 : Int) - (sample_fn.size2_in 0 : Int),
              (sample_fn.size2_out 0 : Int)]).getLastD [] =
          ["c0", "c1"].drop (sample_fn.size2_out 0 - sample_fn.size2_in 0) ∧
        (["c0", "c1"].drop (sample_fn.size2_out 0 - sample_fn.size2_in 0)).length =
          sample_fn.size2_in 0) :=
  ⟨by decide,
    (carried_last_columns printed sample_fn 1 (by decide) (by decide)
      { arg := ["x", "u"], res := sample_fn.eval ["x", "u"], varg := [], vres := [], next := 0 }
      (by decide) ["x", "u"] rfl 0 (by decide)).1,
    ((carried_last_columns printed sample_fn 1 (by decide) (by decide)
      { arg := ["x", "u"], res := sample_fn.eval ["x", "u"], varg := [], vres := [], next := 0 }
      (by decide) ["x", "u"] rfl 0 (by decide)).2.2 (by decide)).2.2 String ["c0", "c1"] rfl⟩

/-! ## The reduced map -/

theorem natCast_eq_iff_toNat (x : Int) (hx : 0 ≤ x) (j : Nat) : (j : Int) = x ↔ j = x.toNat := by
  omega

theorem ite_mem_cons {α : Type} (M : Nat → α) (a : α) (j : Nat) (x : Int) (hx : 0 ≤ x)
    (l : List Int) :
    (if (j : Int) ∈ l then M j else if j = x.toNat then M x.toNat else a) =
      if (j : Int) ∈ x :: l then M j else a := by
  have hiff := natCast_eq_iff_toNat x hx j
  by_cases h1 : (j : Int) ∈ l
  · rw [if_pos h1, if_pos (List.mem_cons_of_mem _ h1)]
  · rw [if_neg h1]
    by_cases h2 : j = x.toNat
    · rw [if_pos h2, if_pos (by rw [hiff.2 h2]; exact List.mem_cons_self _ _), h2]
    · rw [if_neg h2, if_neg]
      intro h
      rcases List.mem_cons.1 h with h | h
      · exact h2 (hiff.1 h)
      · exact h1 h

theorem ite_mem_cons_once {α : Type} (S : α → α) (R : Nat → α) (j : Nat) (x : Int)
    (hx : 0 ≤ x) (l : List Int) (hxl : x ∉ l) :
    (if (j : Int) ∈ l then S (if j = x.toNat then S (R x.toNat) else R j)
      else if j = x.toNat then S (R x.toNat) else R j) =
      if (j : Int) ∈ x :: l then S (R j) else R j := by
  have hiff := natCast_eq_iff_toNat x hx j
  by_cases h2 : j = x.toNat
  · have hjx : (j : Int) = x := hiff.2 h2
    have h1 : ¬ (j : Int) ∈ l := fun h => hxl (hjx ▸ h)
    rw [if_neg h1, if_pos h2, if_pos (by rw [hjx]; exact List.mem_cons_self _ _), h2]
  · rw [if_neg h2]
    by_cases h1 : (j : Int) ∈ l
    · rw [if_pos h1, if_pos (List.mem_cons_of_mem _ h1)]
    · rw [if_neg h1, if_neg]
      intro h
      rcases List.mem_cons.1 h with h | h
      · exact h2 (hiff.1 h)
      · exact h1 h

theorem reduce_in_fold (E : ReduceEnv MX) (f : Function MX) (n : Int) (N : Nat)
    (l : List Int) (hl : ∀ x ∈ l, 0 ≤ x ∧ x < (N : Int)) :
    ∀ (A B : Nat → MX),
      l.foldl (reduce_in_body E f n) ((List.range N).map A, (List.range N).map B) =
        ((List.range N).map (fun (j : Nat) =>
            if (j : Int) ∈ l then f.mx_in.getD j E.null else A j),
          (List.range N).map (fun (j : Nat) =>
            if (j : Int) ∈ l then E.repmat (f.mx_in.getD j E.null) 1 n else B j)) := by
  induction l with
  | nil => intro A B; simp
  | cons x l ih =>
    intro A B
    have hx := hl x (List.mem_cons_self _ _)
    have hlt : x.toNat < N := by omega
    have hbody : reduce_in_body E f n ((List.range N).map A, (List.range N).map B) x =
        ((List.range N).map (fun j =>
            if j = x.toNat then f.mx_in.getD x.toNat E.null else A j),
          (List.range N).map (fun j =>
            if j = x.toNat then E.repmat (f.mx_in.getD x.toNat E.null) 1 n else B j)) := by
      simp [reduce_in_body, set_range_map, getD_range_map, hlt]
    rw [List.foldl_cons, hbody, ih (fun y hy => hl y (List.mem_cons_of_mem _ hy))]
    simp only [Prod.mk.injEq]
    refine ⟨?_, ?_⟩
    · apply range_map_congr
      intro j _
      exact ite_mem_cons (fun j => f.mx_in.getD j E.null) (A j) j x hx.1 l
    · apply range_map_congr
      intro j _
      exact ite_mem_cons (fun j => E.repmat (f.mx_in.getD j E.null) 1 n) (B j) j x hx.1 l

theorem reduce_out_fold (E : ReduceEnv MX) (n : Int) (N : Nat) (l : List Int)
    (hl : ∀ x ∈ l, 0 ≤ x ∧ x < (N : Int)) (hnd : l.Nodup) :
    ∀ (R : Nat → MX),
      l.foldl (reduce_out_body E n) ((List.range N).map R) =
        (List.range N).map (fun (j : Nat) =>
          if (j : Int) ∈ l then E.repsum (R j) 1 n else R j) := by
  induction l with
  | nil => intro R; simp
  | cons x l ih =>
    intro R
    have hx := hl x (List.mem_cons_self _ _)
    have hlt : x.toNat < N := by omega
    have hxl : x ∉ l := (List.nodup_cons.1 hnd).1
    have hbody : reduce_out_body E n ((List.range N).map R) x =
        (List.range N).map (fun j =>
          if j = x.toNat then E.repsum (R x.toNat) 1 n else R j) := by
      simp [reduce_out_body, set_range_map, getD_range_map, hlt]
    rw [List.foldl_cons, hbody,
      ih (fun y hy => hl y (List.mem_cons_of_mem _ hy)) (List.nodup_cons.1 hnd).2]
    apply range_map_congr
    intro j _
    exact ite_mem_cons_once (fun y => E.repsum y 1 n) R j x hx.1 l hxl

/-- C12, as amended. When the `n`-fold map of `f` succeeds and yields `g`, with
as many inputs and outputs as `f`, and the index lists are within bounds and
`reduce_out` has no repeated index, `map(name, parallelization, n, reduce_in,
reduce_out)` hands to the constructor of functions the name and the port names
of `f`, with these expressions: an input in `reduce_in` is the unbatched input
of `f`, passed to `g` repeated `n` times horizontally; any other input is the
batched input of `g`; an output in `reduce_out` is `repsum(y, 1, n)` of the
output `y` of `g`; any other output is the output of `g` unchanged. -/
theorem map_reduce_eq (E : ReduceEnv MX) (f g : Function MX) (name parallelization : String)
    (n : Int) (reduce_in reduce_out : List Int) (opts : Dict) (c c1 : Nat)
    (hmap : map E.toEnv f n parallelization c = (.ok g, c1))
    (hgin : g.n_in = f.n_in) (hgout : g.n_out = f.n_out)
    (hin : ∀ x ∈ reduce_in, 0 ≤ x ∧ x < (f.n_in : Int))
    (hout : ∀ x ∈ reduce_out, 0 ≤ x ∧ x < (f.n_out : Int))
    (hnd : reduce_out.Nodup) :
    map_reduce E f name parallelization n reduce_in reduce_out opts c =
      (E.construct name (reduced_arg E f g reduce_in)
          (reduced_res E f g n reduce_in reduce_out) f.name_in f.name_out [],
        c1) := by
  have hmx : g.mx_in = (List.range f.n_in).map (fun i => g.mx_in.getD i E.null) := by
    have h := eq_range_map_getD g.mx_in E.null
    have hlen : g.mx_in.length = f.n_in := by
      rw [← hgin]; simp [Function.mx_in, Function.n_in]
    rw [hlen] at h
    exact h
  have hfold := reduce_in_fold E f n f.n_in reduce_in hin
    (fun i => g.mx_in.getD i E.null) (fun i => g.mx_in.getD i E.null)
  rw [← hmx] at hfold
  simp only [map_reduce, hmap, hfold]
  have heval : g.eval (mapped_arg E f g n reduce_in) =
      (List.range f.n_out).map (g.call (mapped_arg E f g n reduce_in)) := by
    rw [Function.eval, hgout]
  have hres := reduce_out_fold E n f.n_out reduce_out hout hnd
    (g.call (mapped_arg E f g n reduce_in))
  simp only [mapped_arg] at heval hres
  rw [heval, hres]
  rfl

/-- The statement of C12, as amended, applied to the sample function mapped
twice, with input `x` and output `z` reduced. -/
theorem map_reduce_eq_witness :
    map_reduce printed_reduce sample_fn "F" "thread" 2 [0] [1] [] 0 =
      (printed_reduce.construct "F" (reduced_arg printed_reduce sample_fn sample_map [0])
          (reduced_res printed_reduce sample_fn sample_map 2 [0] [1])
          sample_fn.name_in sample_fn.name_out [],
        0) :=
  map_reduce_eq printed_reduce sample_fn sample_map "F" "thread" 2 [0] [1] [] 0 0 rfl rfl rfl
    (by decide) (by decide) (by decide)

/-- C12, as stated, fails: with the index of output `z` given twice in
`reduce_out`, `repsum` is applied twice to the mapped output, so that the
output built is not `repsum(y, 1, n)` of the mapped output `y`. -/
theorem map_reduce_repeated_index :
    (1 : Int) ≤ 2 ∧ (∀ x ∈ ([0] : List Int), 0 ≤ x ∧ x < (sample_fn.n_in : Int)) ∧
      (∀ x ∈ ([1, 1] : List Int), 0 ≤ x ∧ x < (sample_fn.n_out : Int)) ∧
      map printed_reduce.toEnv sample_fn 2 "thread" 0 = (.ok sample_map, 0) ∧
      reduced_res printed_reduce sample_fn sample_map 2 [0] [1, 1] =
        ["Map(thread, f, 2)(repmat(x, 1, 2), u)[0]",
         "repsum(Map(thread, f, 2)(repmat(x, 1, 2), u)[1], 1, 2)"] ∧
      map_reduce printed_reduce sample_fn "F" "thread" 2 [0] [1, 1] [] 0 ≠
        (printed_reduce.construct "F" (reduced_arg printed_reduce sample_fn sample_map [0])
            (reduced_res printed_reduce sample_fn sample_map 2 [0] [1, 1])
            sample_fn.name_in sample_fn.name_out [],
          0) := by
  refine ⟨by decide, by decide, by decide, rfl, by decide, ?_⟩
  intro h
  have h2 := congrArg
    (fun r : Except String (Function String) × Nat =>
      match r.1 with
      | .ok g => g.call [] 1
      | .error _ => "") h
  revert h2
  decide

/-! ## Construction from a named mapping -/

theorem place_entries_error (argn resn : List String) (dict : List (String × MX))
    (h : ∃ e ∈ dict, e.1 ∉ argn ∧ e.1 ∉ resn) :
    ∃ key, key ∉ argn ∧ key ∉ resn ∧
      ∀ s, place_entries argn resn dict s =
        .error ("Unknown dictionary entry: '" ++ key ++ "'") := by
  induction dict with
  | nil => obtain ⟨e, he, _⟩ := h; cases he
  | cons i rest ih =>
    by_cases h1 : i.1 ∈ argn
    · have hrest : ∃ e ∈ rest, e.1 ∉ argn ∧ e.1 ∉ resn := by
        obtain ⟨e, he, hu⟩ := h
        rcases List.mem_cons.1 he with rfl | he
        · exact absurd h1 hu.1
        · exact ⟨e, he, hu⟩
      obtain ⟨key, k1, k2, hk⟩ := ih hrest
      exact ⟨key, k1, k2, fun s => by rw [place_entries, if_pos h1, hk]⟩
    · by_cases h2 : i.1 ∈ resn
      · have hrest : ∃ e ∈ rest, e.1 ∉ argn ∧ e.1 ∉ resn := by
          obtain ⟨e, he, hu⟩ := h
          rcases List.mem_cons.1 he with rfl | he
          · exact absurd h2 hu.2
          · exact ⟨e, he, hu⟩
        obtain ⟨key, k1, k2, hk⟩ := ih hrest
        exact ⟨key, k1, k2, fun s => by rw [place_entries, if_neg h1, if_pos h2, hk]⟩
      · exact ⟨i.1, h1, h2, fun s => by rw [place_entries, if_neg h1, if_neg h2]⟩

theorem place_entries_ok (argn resn : List String) (dict : List (String × MX))
    (hk : (dict.map Prod.fst).Nodup) (h : ∀ e ∈ dict, e.1 ∈ argn ∨ e.1 ∈ resn) :
    ∀ (a r : List MX), a.length = argn.length → r.length = resn.length →
      ∃ a1 r1, place_entries argn resn dict (a, r) = .ok (a1, r1) ∧
        a1.length = a.length ∧ r1.length = r.length ∧
        (∀ e ∈ dict, e.1 ∈ argn → a1[argn.indexOf e.1]? = some e.2) ∧
        (∀ e ∈ dict, e.1 ∉ argn → r1[resn.indexOf e.1]? = some e.2) ∧
        (∀ p : Nat, (∀ e ∈ dict, e.1 ∈ argn → argn.indexOf e.1 ≠ p) → a1[p]? = a[p]?) ∧
        (∀ p : Nat, (∀ e ∈ dict, e.1 ∉ argn → resn.indexOf e.1 ≠ p) → r1[p]? = r[p]?) := by
  induction dict with
  | nil =>
    intro a r _ _
    exact ⟨a, r, rfl, rfl, rfl, by simp, by simp, by simp, by simp⟩
  | cons i rest ih =>
    intro a r ha hr
    have hk2 : (rest.map Prod.fst).Nodup := (List.nodup_cons.1 hk).2
    have hi : i.1 ∉ rest.map Prod.fst := (List.nodup_cons.1 hk).1
    have hne : ∀ e ∈ rest, e.1 ≠ i.1 := fun e he heq =>
      hi (heq ▸ List.mem_map_of_mem Prod.fst he)
    have hrest : ∀ e ∈ rest, e.1 ∈ argn ∨ e.1 ∈ resn := fun e he =>
      h e (List.mem_cons_of_mem _ he)
    by_cases h1 : i.1 ∈ argn
    · obtain ⟨a1, r1, hp, hl1, hl2, hin, hout, hkeep1, hkeep2⟩ :=
        ih hk2 hrest (a.set (argn.indexOf i.1) i.2) r (by rw [List.length_set, ha]) hr
      refine ⟨a1, r1, by rw [place_entries, if_pos h1, hp], by rw [hl1, List.length_set],
        hl2, ?_, ?_, ?_, ?_⟩
      · intro e he hea
        rcases List.mem_cons.1 he with rfl | he
        · rw [hkeep1 (argn.indexOf e.1) (fun e2 he2 he2a heq =>
            hne e2 he2 ((List.indexOf_inj he2a h1).1 heq))]
          exact List.getElem?_set_self (by rw [ha]; exact List.indexOf_lt_length.2 h1)
        · exact hin e he hea
      · intro e he hea
        rcases List.mem_cons.1 he with rfl | he
        · exact absurd h1 hea
        · exact hout e he hea
      · intro p hp2
        rw [hkeep1 p (fun e he => hp2 e (List.mem_cons_of_mem _ he))]
        exact List.getElem?_set_ne (hp2 i (List.mem_cons_self _ _) h1)
      · intro p hp2
        exact hkeep2 p (fun e he => hp2 e (List.mem_cons_of_mem _ he))
    · have h2 : i.1 ∈ resn := (h i (List.mem_cons_self _ _)).resolve_left h1
      obtain ⟨a1, r1, hp, hl1, hl2, hin, hout, hkeep1, hkeep2⟩ :=
        ih hk2 hrest a (r.set (resn.indexOf i.1) i.2) ha (by rw [List.length_set, hr])
      refine ⟨a1, r1, by rw [place_entries, if_neg h1, if_pos h2, hp], hl1,
        by rw [hl2, List.length_set], ?_, ?_, ?_, ?_⟩
      · intro e he hea
        rcases List.mem_cons.1 he with rfl | he
        · exact absurd hea h1
        · exact hin e he hea
      · intro e he hea
        rcases List.mem_cons.1 he with rfl | he
        · rw [hkeep2 (resn.indexOf e.1) (fun e2 he2 he2a heq => by
            have he2r : e2.1 ∈ resn := (hrest e2 he2).resolve_left he2a
            exact hne e2 he2 ((List.indexOf_inj he2r h2).1 heq))]
          exact List.getElem?_set_self (by rw [hr]; exact List.indexOf_lt_length.2 h2)
        · exact hout e he hea
      · intro p hp2
        exact hkeep1 p (fun e he => hp2 e (List.mem_cons_of_mem _ he))
      · intro p hp2
        rw [hkeep2 p (fun e he => hp2 e (List.mem_cons_of_mem _ he))]
        exact List.getElem?_set_ne (hp2 i (List.mem_cons_self _ _) h1)

/-- C13, as amended. For a mapping without repeated keys: the loop over the
entries fails exactly when some key occurs in neither `argn` nor `resn`; the
construction then fails with the unknown-entry error whatever the collaborators
are, so that no node is built. Otherwise the constructor of functions is called
with lists `arg` and `res` as long as `argn` and `resn`, in which the
expression of every entry stands at the first position of its key in `argn`
when the key occurs in `argn`, and otherwise at the first position of its key
in `resn`, and every position that no entry is placed at holds `MX()`. -/
theorem construct_dict_spec (E : Env MX) (name : String) (dict : List (String × MX))
    (argn resn : List String) (opts : Dict) (hk : (dict.map Prod.fst).Nodup) :
    ((∃ msg, place_entries argn resn dict
          (List.replicate argn.length E.null, List.replicate resn.length E.null) =
          .error msg) ↔
        ∃ e ∈ dict, e.1 ∉ argn ∧ e.1 ∉ resn) ∧
    ((∃ e ∈ dict, e.1 ∉ argn ∧ e.1 ∉ resn) →
      ∃ key, key ∉ argn ∧ key ∉ resn ∧
        ∀ E2 : Env MX, construct_dict E2 name dict argn resn opts =
          .error ("Unknown dictionary entry: '" ++ key ++ "'")) ∧
    ((∀ e ∈ dict, e.1 ∈ argn ∨ e.1 ∈ resn) →
      ∃ arg res, construct_dict E name dict argn resn opts =
          E.construct name arg res argn resn opts ∧
        arg.length = argn.length ∧ res.length = resn.length ∧
        (∀ e ∈ dict, e.1 ∈ argn → arg[argn.indexOf e.1]? = some e.2) ∧
        (∀ e ∈ dict, e.1 ∉ argn → res[resn.indexOf e.1]? = some e.2) ∧
        (∀ p : Nat, p < argn.length → (∀ e ∈ dict, e.1 ∈ argn → argn.indexOf e.1 ≠ p) →
          arg[p]? = some E.null) ∧
        (∀ p : Nat, p < resn.length → (∀ e ∈ dict, e.1 ∉ argn → resn.indexOf e.1 ≠ p) →
          res[p]? = some E.null)) := by
  have hok : (∀ e ∈ dict, e.1 ∈ argn ∨ e.1 ∈ resn) →
      ∃ a1 r1, place_entries argn resn dict
          (List.replicate argn.length E.null, List.replicate resn.length E.null) =
          .ok (a1, r1) ∧
        a1.length = argn.length ∧ r1.length = resn.length ∧
        (∀ e ∈ dict, e.1 ∈ argn → a1[argn.indexOf e.1]? = some e.2) ∧
        (∀ e ∈ dict, e.1 ∉ argn → r1[resn.indexOf e.1]? = some e.2) ∧
        (∀ p : Nat, p < argn.length → (∀ e ∈ dict, e.1 ∈ argn → argn.indexOf e.1 ≠ p) →
          a1[p]? = some E.null) ∧
        (∀ p : Nat, p < resn.length → (∀ e ∈ dict, e.1 ∉ argn → resn.indexOf e.1 ≠ p) →
          r1[p]? = some E.null) := by
    intro h
    obtain ⟨a1, r1, hp, hl1, hl2, hin, hout, hkeep1, hkeep2⟩ :=
      place_entries_ok argn resn dict hk h (List.replicate argn.length E.null)
        (List.replicate resn.length E.null) (by simp) (by simp)
    refine ⟨a1, r1, hp, by simpa using hl1, by simpa using hl2, hin, hout, ?_, ?_⟩
    · intro p hp1 hp2
      rw [hkeep1 p hp2, List.getElem?_replicate, if_pos hp1]
    · intro p hp1 hp2
      rw [hkeep2 p hp2, List.getElem?_replicate, if_pos hp1]
  refine ⟨⟨?_, ?_⟩, ?_, ?_⟩
  · rintro ⟨msg, hmsg⟩
    by_contra hno
    have hall : ∀ e ∈ dict, e.1 ∈ argn ∨ e.1 ∈ resn := by
      intro e he
      by_contra hc
      exact hno ⟨e, he, fun h1 => hc (Or.inl h1), fun h2 => hc (Or.inr h2)⟩
    obtain ⟨a1, r1, hp, _⟩ := hok hall
    rw [hp] at hmsg
    cases hmsg
  · intro h
    obtain ⟨key, _, _, hkey⟩ := place_entries_error argn resn dict h
    exact ⟨_, hkey _⟩
  · intro h
    obtain ⟨key, k1, k2, hkey⟩ := place_entries_error argn resn dict h
    exact ⟨key, k1, k2, fun E2 => by rw [construct_dict, hkey]⟩
  · intro h
    obtain ⟨a1, r1, hp, hrest⟩ := hok h
    exact ⟨a1, r1, by rw [construct_dict, hp], hrest⟩

/-- The statement of C13, as amended, applied to a mapping with the keys `x`
and `y`: with the names `x` for the input and `y` for the output the
constructor is called, and with the output named `z` the key `y` is unknown. -/
theorem construct_dict_spec_witness :
    (∃ arg res, construct_dict printed "F" [("x", "a"), ("y", "a+1")] ["x"] ["y"] [] =
        printed.construct "F" arg res ["x"] ["y"] [] ∧
      arg[(["x"] : List String).indexOf "x"]? = some "a" ∧
      res[(["y"] : List String).indexOf "y"]? = some "a+1") ∧
    (∃ key, key ∉ (["x"] : List String) ∧ key ∉ (["z"] : List String) ∧
      ∀ E2 : Env String, construct_dict E2 "F" [("x", "a"), ("y", "a+1")] ["x"] ["z"] [] =
        .error ("Unknown dictionary entry: '" ++ key ++ "'")) := by
  refine ⟨?_, ?_⟩
  · obtain ⟨arg, res, h1, _, _, h4, h5, _⟩ :=
      (construct_dict_spec printed "F" [("x", "a"), ("y", "a+1")] ["x"] ["y"] []
        (by decide)).2.2 (by decide)
    exact ⟨arg, res, h1, h4 ("x", "a") (by decide) (by decide),
      h5 ("y", "a+1") (by decide) (by decide)⟩
  · exact (construct_dict_spec printed "F" [("x", "a"), ("y", "a+1")] ["x"] ["z"] []
      (by decide)).2.1 ⟨("y", "a+1"), by decide, by decide, by decide⟩

/-- C13, as stated, fails: when an input and an output are both named `x`, the
key `x` of the mapping is unknown to neither list, and it does not match
exactly one declared name but two; its expression is placed in the input list
alone and the output named `x` keeps `MX()`. -/
theorem construct_dict_shared_name :
    (∀ e ∈ ([("x", "a")] : List (String × String)),
        e.1 ∈ (["x"] : List String) ∨ e.1 ∈ (["x"] : List String)) ∧
      ((["x"] : List String) ++ ["x"]).count "x" = 2 ∧
      place_entries ["x"] ["x"] [("x", "a")]
          (List.replicate 1 printed.null, List.replicate 1 printed.null) =
        .ok (["a"], ["MX()"]) ∧
      construct_dict printed "F" [("x", "a")] ["x"] ["x"] [] =
        printed.construct "F" ["a"] ["MX()"] ["x"] ["x"] [] := by
  refine ⟨by decide, by decide, rfl, rfl⟩

/-! ## Calls with named mappings -/

theorem lookup_filter_ne {M : Type} (m : List (String × M)) (key k : String) (h : k ≠ key) :
    List.lookup k (m.filter (fun e => e.1 != key)) = List.lookup k m := by
  induction m with
  | nil => rfl
  | cons e m ih =>
    obtain ⟨a, b⟩ := e
    by_cases h1 : a = key
    · subst h1
      have hka : (k == a) = false := by simpa using h
      rw [List.filter_cons]
      simp only [bne_self_eq_false, Bool.false_eq_true, if_false, List.lookup_cons, hka, ih]
    · have hne : (a != key) = true := by simpa using h1
      rw [List.filter_cons]
      simp only [hne, if_true, List.lookup_cons, ih]

theorem lookup_map_assign_self {M : Type} (m : List (String × M)) (key : String) (v : M) :
    List.lookup key (map_assign m key v) = some v := by
  simp [map_assign, List.lookup_cons]

theorem lookup_map_assign_ne {M : Type} (m : List (String × M)) (key k : String) (v : M)
    (h : k ≠ key) : List.lookup k (map_assign m key v) = List.lookup k m := by
  have hk : (k == key) = false := by simpa using h
  simp only [map_assign, List.lookup_cons, hk]
  exact lookup_filter_ne m key k h

theorem default_inputs_replicate {M : Type} (default_in : Nat → M) (null : M) (n : Nat) :
    default_inputs default_in (List.replicate n null) = (List.range n).map default_in := by
  rw [default_inputs, List.length_replicate, replicate_eq_range_map, foldl_set_range_map]
  apply range_map_congr
  intro i hi
  simp [hi]

theorem assign_inputs_ok {M : Type} (f : Function MX) (arg : List (String × M))
    (hk : (arg.map Prod.fst).Nodup) (h : ∀ e ∈ arg, e.1 ∈ f.name_in) :
    ∀ v : List M, v.length = f.n_in →
      ∃ v1, assign_inputs f arg v = .ok v1 ∧ v1.length = v.length ∧
        (∀ e ∈ arg, v1[f.name_in.indexOf e.1]? = some e.2) ∧
        (∀ p : Nat, (∀ e ∈ arg, f.name_in.indexOf e.1 ≠ p) → v1[p]? = v[p]?) := by
  have hnin : f.name_in.length = f.n_in := by simp [Function.name_in, Function.n_in]
  induction arg with
  | nil => intro v _; exact ⟨v, rfl, rfl, by simp, by simp⟩
  | cons e rest ih =>
    intro v hv
    have hk2 : (rest.map Prod.fst).Nodup := (List.nodup_cons.1 hk).2
    have he : e.1 ∉ rest.map Prod.fst := (List.nodup_cons.1 hk).1
    have hne : ∀ e2 ∈ rest, e2.1 ≠ e.1 := fun e2 he2 heq =>
      he (heq ▸ List.mem_map_of_mem Prod.fst he2)
    have hrest : ∀ e2 ∈ rest, e2.1 ∈ f.name_in := fun e2 he2 =>
      h e2 (List.mem_cons_of_mem _ he2)
    have hmem : e.1 ∈ f.name_in := h e (List.mem_cons_self _ _)
    have hlt : f.name_in.indexOf e.1 < v.length := by
      rw [hv, ← hnin]; exact List.indexOf_lt_length.2 hmem
    obtain ⟨v1, hp, hl, hin, hkeep⟩ :=
      ih hk2 hrest (v.set (f.name_in.indexOf e.1) e.2) (by rw [List.length_set, hv])
    refine ⟨v1, ?_, by rw [hl, List.length_set], ?_, ?_⟩
    · rw [assign_inputs]
      simp only [Function.index_in, hmem, if_true, hlt, hp]
    · intro e2 he2
      rcases List.mem_cons.1 he2 with rfl | he2
      · rw [hkeep (f.name_in.indexOf e2.1) (fun e3 he3 heq =>
          hne e3 he3 ((List.indexOf_inj (hrest e3 he3) hmem).1 heq))]
        exact List.getElem?_set_self hlt
      · exact hin e2 he2
    · intro p hp2
      rw [hkeep p (fun e2 he2 => hp2 e2 (List.mem_cons_of_mem _ he2))]
      exact List.getElem?_set_ne (hp2 e (List.mem_cons_self _ _))

theorem name_out_at_inj (f : Function MX) (hnd : f.name_out.Nodup) (i j : Nat)
    (hi : i < f.n_out) (hj : j < f.n_out) (h : f.name_out_at i = f.name_out_at j) : i = j := by
  have hlen : f.name_out.length = f.n_out := by simp [Function.name_out, Function.n_out]
  have hi2 : i < f.name_out.length := by omega
  have hj2 : j < f.name_out.length := by omega
  rw [Function.name_out_at, Function.name_out_at, List.getD_eq_getElem _ _ hi2,
    List.getD_eq_getElem _ _ hj2] at h
  exact (hnd.getElem_inj_iff).1 h

theorem name_out_at_mem (f : Function MX) (i : Nat) (hi : i < f.n_out) :
    f.name_out_at i ∈ f.name_out := by
  have hlen : f.name_out.length = f.n_out := by simp [Function.name_out, Function.n_out]
  have hi2 : i < f.name_out.length := by omega
  rw [Function.name_out_at, List.getD_eq_getElem _ _ hi2]
  exact List.getElem_mem hi2

theorem save_to_map_ok {M : Type} (f : Function MX) (null : M) (res_v : List M)
    (idx : List Nat) (hidx : ∀ i ∈ idx, i < f.n_out) (hu : idx.Nodup) :
    ∀ res : List (String × M),
      ∃ out, save_to_map f null res_v idx res = .ok out ∧
        (f.name_out.Nodup →
          ∀ i ∈ idx, List.lookup (f.name_out_at i) out = some (res_v.getD i null)) ∧
        (∀ key : String, (∀ i ∈ idx, f.name_out_at i ≠ key) →
          List.lookup key out = List.lookup key res) := by
  induction idx with
  | nil => intro res; exact ⟨res, rfl, by simp, by simp⟩
  | cons i rest ih =>
    intro res
    have hi : i < f.n_out := hidx i (List.mem_cons_self _ _)
    have hrest : ∀ j ∈ rest, j < f.n_out := fun j hj => hidx j (List.mem_cons_of_mem _ hj)
    have hni : i ∉ rest := (List.nodup_cons.1 hu).1
    obtain ⟨out, hp, hin, hkeep⟩ := ih hrest (List.nodup_cons.1 hu).2
      (map_assign res (f.name_out_at i) (res_v.getD i null))
    refine ⟨out, by rw [save_to_map, if_pos hi, hp], ?_, ?_⟩
    · intro hnd j hj
      rcases List.mem_cons.1 hj with rfl | hj
      · rw [hkeep (f.name_out_at j) (fun j2 hj2 heq =>
          hni ((name_out_at_inj f hnd j2 j (hrest j2 hj2) hi heq) ▸ hj2))]
        exact lookup_map_assign_self _ _ _
      · exact hin hnd j hj
    · intro key hkey
      rw [hkeep key (fun j hj => hkey j (List.mem_cons_of_mem _ hj))]
      exact lookup_map_assign_ne _ _ _ _ (fun h => hkey i (List.mem_cons_self _ _) h.symm)

/-- C14, as amended. For a mapping `arg` without repeated keys in which every
key is an input name: the ordered list handed to the node has `n_in` entries
and holds, at the position a key resolves to, the value of that entry, and at
every other position `i` the default `default_in(i)`; and when the node returns
`n_out` results, the mapping returned is the same whatever `res` held before,
has no key that is not an output name and, when the output names are pairwise
distinct, maps `name_out(i)` to the `i`-th result for every output `i`. -/
theorem call_map_spec {M : Type} (f : Function MX) (null : M) (default_in : Nat → M)
    (call : List M → Bool → Bool → Except String (List M)) (arg : List (String × M))
    (always_inline never_inline : Bool)
    (hk : (arg.map Prod.fst).Nodup) (hres : ∀ e ∈ arg, e.1 ∈ f.name_in) :
    ∃ arg_v,
      assign_inputs f arg (default_inputs default_in (List.replicate f.n_in null)) =
        .ok arg_v ∧
      arg_v.length = f.n_in ∧
      (∀ e ∈ arg, arg_v[f.name_in.indexOf e.1]? = some e.2) ∧
      (∀ i : Nat, i < f.n_in → (∀ e ∈ arg, f.name_in.indexOf e.1 ≠ i) →
        arg_v[i]? = some (default_in i)) ∧
      (∀ msg, call arg_v always_inline never_inline = .error msg →
        ∀ res0, _call f null default_in call arg res0 always_inline never_inline =
          .error msg) ∧
      (∀ res_v, call arg_v always_inline never_inline = .ok res_v → res_v.length = f.n_out →
        ∃ out,
          (∀ res0, _call f null default_in call arg res0 always_inline never_inline =
            .ok out) ∧
          (f.name_out.Nodup →
            ∀ i : Nat, i < f.n_out → List.lookup (f.name_out_at i) out = res_v[i]?) ∧
          (∀ key : String, key ∉ f.name_out → List.lookup key out = none)) := by
  obtain ⟨arg_v, hp, hl, hin, hkeep⟩ := assign_inputs_ok f arg hk hres
    (default_inputs default_in (List.replicate f.n_in null))
    (by rw [default_inputs_replicate]; simp)
  refine ⟨arg_v, hp, ?_, hin, ?_, ?_, ?_⟩
  · rw [hl, default_inputs_replicate]; simp
  · intro i hi hno
    rw [hkeep i hno, default_inputs_replicate, getElem?_range_map, if_pos hi]
  · intro msg hmsg res0
    simp only [_call, hp, hmsg]
  · intro res_v hcall hlen
    obtain ⟨out, hs, hfound, hother⟩ := save_to_map_ok f null res_v
      (List.range res_v.length) (fun i hi => by rw [← hlen]; exact List.mem_range.1 hi)
      (List.nodup_range _) []
    refine ⟨out, fun res0 => by simp only [_call, hp, hcall, hs], ?_, ?_⟩
    · intro hnd i hi
      have hi2 : i < res_v.length := by omega
      rw [hfound hnd i (List.mem_range.2 hi2), List.getD_eq_getElem _ _ hi2,
        List.getElem?_eq_getElem hi2]
    · intro key hkey
      rw [hother key (fun i hi heq => hkey (heq ▸ name_out_at_mem f i (by
        rw [← hlen]; exact List.mem_range.1 hi)))]
      rfl

/-- The statement of C14, as amended, applied to the sample function, called with a value
for the input `u` alone; the node returns its arguments. -/
theorem call_map_spec_witness :
    ∃ arg_v,
      assign_inputs sample_fn [("u", "1")]
          (default_inputs (fun i => "d" ++ toString i) (List.replicate sample_fn.n_in "")) =
        .ok arg_v ∧
      arg_v.length = sample_fn.n_in ∧ arg_v[1]? = some "1" ∧ arg_v[0]? = some "d0" ∧
      ∃ out,
        (∀ res0, _call sample_fn "" (fun i => "d" ++ toString i) (fun a _ _ => .ok a)
            [("u", "1")] res0 false false = .ok out) ∧
        (∀ i : Nat, i < sample_fn.n_out →
          List.lookup (sample_fn.name_out_at i) out = arg_v[i]?) := by
  obtain ⟨arg_v, h1, h2, h3, h4, _, h6⟩ :=
    call_map_spec sample_fn "" (fun i => "d" ++ toString i) (fun a _ _ => .ok a)
      [("u", "1")] false false (by decide) (by decide)
  obtain ⟨out, h7, h8, _⟩ := h6 arg_v rfl h2
  exact ⟨arg_v, h1, h2, h3 ("u", "1") (by decide), h4 0 (by decide) (by decide), out, h7,
    h8 (by decide)⟩

/-- C14, as stated, fails: for a function whose two outputs are both named `y`,
called with a value for the input `x` on a node that returns the results `r0`
and `r1`, the mapping returned has the single entry of `y` with the value `r1`,
so that `name_out(0)` is not mapped to the result of index 0, which is `r0`. -/
theorem call_map_shared_output_name :
    (∀ e ∈ [("x", "1")], e.1 ∈ twin_fn.name_in) ∧
      _call twin_fn "" (fun i => "d" ++ toString i) (fun _ _ _ => .ok ["r0", "r1"])
          [("x", "1")] [] false false = .ok [("y", "r1")] ∧
      twin_fn.name_out_at 0 = "y" ∧
      List.lookup (twin_fn.name_out_at 0) [("y", "r1")] = some "r1" ∧
      ["r0", "r1"][0]? = some "r0" ∧
      List.lookup (twin_fn.name_out_at 0) [("y", "r1")] ≠ ["r0", "r1"][0]? := by
  refine ⟨by decide, rfl, by decide, by decide, by decide, by decide⟩

/-! ## Buffers of ordered containers -/

theorem buf_in_loop_ok {D P : Type} (f : Function MX) (get_ptr : Nat → List D → P)
    (arg : List (List D)) (idx : List Nat) (hu : idx.Nodup)
    (h : ∀ i ∈ idx, (arg.getD i []).length = f.nnz_in i) :
    ∀ buf : List P,
      ∃ b, buf_in_loop f get_ptr arg idx buf = .ok b ∧ b.length = buf.length ∧
        (∀ i ∈ idx, i < buf.length → b[i]? = some (get_ptr i (arg.getD i []))) ∧
        (∀ p : Nat, p ∉ idx → b[p]? = buf[p]?) := by
  induction idx with
  | nil => intro buf; exact ⟨buf, rfl, rfl, by simp, by simp⟩
  | cons i rest ih =>
    intro buf
    have hi := h i (List.mem_cons_self _ _)
    have hni : i ∉ rest := (List.nodup_cons.1 hu).1
    obtain ⟨b, hp, hl, hin, hkeep⟩ := ih (List.nodup_cons.1 hu).2
      (fun j hj => h j (List.mem_cons_of_mem _ hj)) (buf.set i (get_ptr i (arg.getD i [])))
    refine ⟨b, ?_, by rw [hl, List.length_set], ?_, ?_⟩
    · rw [buf_in_loop]
      simp only [hi, not_true_eq_false, if_false, hp]
    · intro j hj hlt
      rcases List.mem_cons.1 hj with rfl | hj
      · rw [hkeep j hni]
        exact List.getElem?_set_self hlt
      · exact hin j hj (by rw [List.length_set]; exact hlt)
    · intro p hp2
      rw [hkeep p (fun hm => hp2 (List.mem_cons_of_mem _ hm))]
      exact List.getElem?_set_ne (fun e : i = p => hp2 (by rw [← e]; exact List.mem_cons_self _ _))

theorem buf_in_loop_error {D P : Type} (f : Function MX) (get_ptr : Nat → List D → P)
    (arg : List (List D)) (idx : List Nat)
    (h : ∃ i ∈ idx, (arg.getD i []).length ≠ f.nnz_in i) :
    ∀ buf : List P,
      buf_in_loop f get_ptr arg idx buf = .error "arg_it->size()==nnz_in(i)" := by
  induction idx with
  | nil => obtain ⟨i, hi, _⟩ := h; cases hi
  | cons i rest ih =>
    intro buf
    by_cases hi : (arg.getD i []).length = f.nnz_in i
    · have hrest : ∃ j ∈ rest, (arg.getD j []).length ≠ f.nnz_in j := by
        obtain ⟨j, hj, hne⟩ := h
        rcases List.mem_cons.1 hj with rfl | hj
        · exact absurd hi hne
        · exact ⟨j, hj, hne⟩
      rw [buf_in_loop]
      simp only [hi, not_true_eq_false, if_false]
      exact ih hrest _
    · rw [buf_in_loop]
      simp only [hi, not_false_eq_true, if_true]

/-- C15. With `sz_arg ≥ n_in`, `buf_in` on an ordered list of containers
succeeds exactly when there are `n_in` containers and container `i` has
`nnz_in(i)` elements for every `i`; a list of another length fails on the first
assertion and a container of another size on the second; on success the array
has `sz_arg` entries, entry `i < n_in` is the pointer `get_ptr` yields for
container `i`, and every further entry is null. -/
theorem buf_in_spec {D P : Type} (f : Function MX) (sz_arg : Nat) (null : P)
    (get_ptr : Nat → List D → P) (arg : List (List D)) (hsz : f.n_in ≤ sz_arg) :
    ((∃ buf, buf_in f sz_arg null get_ptr arg = .ok buf) ↔
        (arg.length = f.n_in ∧ ∀ i : Nat, i < f.n_in → (arg.getD i []).length = f.nnz_in i)) ∧
    (arg.length ≠ f.n_in → buf_in f sz_arg null get_ptr arg = .error "arg.size()==n_in()") ∧
    (arg.length = f.n_in → (∃ i : Nat, i < f.n_in ∧ (arg.getD i []).length ≠ f.nnz_in i) →
      buf_in f sz_arg null get_ptr arg = .error "arg_it->size()==nnz_in(i)") ∧
    (∀ buf, buf_in f sz_arg null get_ptr arg = .ok buf →
      buf.length = sz_arg ∧
      (∀ i : Nat, i < f.n_in → buf[i]? = some (get_ptr i (arg.getD i []))) ∧
      (∀ i : Nat, f.n_in ≤ i → i < sz_arg → buf[i]? = some null)) := by
  have hbad : arg.length ≠ f.n_in →
      buf_in f sz_arg null get_ptr arg = .error "arg.size()==n_in()" := by
    intro h
    simp only [buf_in, h, not_false_eq_true, if_true]
  have hsize : arg.length = f.n_in →
      (∃ i : Nat, i < f.n_in ∧ (arg.getD i []).length ≠ f.nnz_in i) →
      buf_in f sz_arg null get_ptr arg = .error "arg_it->size()==nnz_in(i)" := by
    intro h ⟨i, hi, hne⟩
    simp only [buf_in, h, not_true_eq_false, if_false]
    exact buf_in_loop_error f get_ptr arg (List.range f.n_in)
      ⟨i, List.mem_range.2 hi, hne⟩ _
  have hgood : arg.length = f.n_in →
      (∀ i : Nat, i < f.n_in → (arg.getD i []).length = f.nnz_in i) →
      ∃ buf, buf_in f sz_arg null get_ptr arg = .ok buf ∧ buf.length = sz_arg ∧
        (∀ i : Nat, i < f.n_in → buf[i]? = some (get_ptr i (arg.getD i []))) ∧
        (∀ i : Nat, f.n_in ≤ i → i < sz_arg → buf[i]? = some null) := by
    intro h hall
    obtain ⟨b, hp, hl, hin, hkeep⟩ := buf_in_loop_ok f get_ptr arg (List.range f.n_in)
      (List.nodup_range _) (fun i hi => hall i (List.mem_range.1 hi))
      (List.replicate sz_arg null)
    refine ⟨b, by simp only [buf_in, h, not_true_eq_false, if_false, hp],
      by rw [hl, List.length_replicate], ?_, ?_⟩
    · intro i hi
      exact hin i (List.mem_range.2 hi) (by rw [List.length_replicate]; omega)
    · intro i hi1 hi2
      rw [hkeep i (fun hm => by have := List.mem_range.1 hm; omega),
        List.getElem?_replicate, if_pos hi2]
  refine ⟨⟨?_, ?_⟩, hbad, hsize, ?_⟩
  · rintro ⟨buf, hbuf⟩
    by_cases h1 : arg.length = f.n_in
    · refine ⟨h1, ?_⟩
      intro i hi
      by_contra hne
      rw [hsize h1 ⟨i, hi, hne⟩] at hbuf
      cases hbuf
    · rw [hbad h1] at hbuf
      cases hbuf
  · rintro ⟨h1, hall⟩
    obtain ⟨buf, hbuf, _⟩ := hgood h1 hall
    exact ⟨buf, hbuf⟩
  · intro buf hbuf
    have h1 : arg.length = f.n_in := by
      by_contra h1
      rw [hbad h1] at hbuf
      cases hbuf
    have hall : ∀ i : Nat, i < f.n_in → (arg.getD i []).length = f.nnz_in i := by
      intro i hi
      by_contra hne
      rw [hsize h1 ⟨i, hi, hne⟩] at hbuf
      cases hbuf
    obtain ⟨b, hb, hrest⟩ := hgood h1 hall
    rw [hb] at hbuf
    cases hbuf
    exact hrest

/-- The statement of C15 applied to the sample function, whose two inputs have
one nonzero each, with three slots for arguments: two containers of one element
succeed, and one container alone fails. -/
theorem buf_in_spec_witness :
    (∃ buf, buf_in sample_fn 3 (none : Option Nat) (fun i _ => some i)
        ([[10], [20]] : List (List Int)) = .ok buf) ∧
      buf_in sample_fn 3 (none : Option Nat) (fun i _ => some i) ([[10]] : List (List Int)) =
        .error "arg.size()==n_in()" :=
  ⟨(buf_in_spec sample_fn 3 (none : Option Nat) (fun i _ => some i)
      ([[10], [20]] : List (List Int)) (by decide)).1.2 ⟨by decide, by decide⟩,
   (buf_in_spec sample_fn 3 (none : Option Nat) (fun i _ => some i)
      ([[10]] : List (List Int)) (by decide)).2.1 (by decide)⟩

theorem length_resize {α : Type} (v : List α) (n : Nat) (x : α) : (resize v n x).length = n := by
  simp only [resize, List.length_append, List.length_take, List.length_replicate]
  omega

theorem buf_out_range {D P : Type} (f : Function MX) (zero : D) (get_ptr : Nat → List D → P)
    (N S : Nat) (R : Nat → List D) (B : Nat → P) (M : Nat) (hM : M ≤ N) :
    (List.range M).foldl (buf_out_body f zero get_ptr)
        ((List.range N).map R, (List.range S).map B) =
      ((List.range N).map (fun i => if i < M then resize (R i) (f.nnz_out i) zero else R i),
        (List.range S).map (fun i =>
          if i < M then get_ptr i (resize (R i) (f.nnz_out i) zero) else B i)) := by
  induction M with
  | zero => simp
  | succ M ih =>
    rw [List.range_succ, List.foldl_append, ih (by omega), List.foldl_cons, List.foldl_nil]
    have hlt : M < N := by omega
    simp only [buf_out_body, modify_range_map, set_range_map, getD_range_map, hlt, if_true,
      lt_self_iff_false, if_false, Prod.mk.injEq]
    refine ⟨?_, ?_⟩
    · apply range_map_congr
      intro i _
      by_cases h1 : i = M
      · subst h1; simp
      · by_cases h2 : i < M
        · have : i < M + 1 := by omega
          simp [h1, h2, this]
        · have : ¬ i < M + 1 := by omega
          simp [h1, h2, this]
    · apply range_map_congr
      intro i _
      by_cases h1 : i = M
      · subst h1; simp
      · by_cases h2 : i < M
        · have : i < M + 1 := by omega
          simp [h1, h2, this]
        · have : ¬ i < M + 1 := by omega
          simp [h1, h2, this]

/-- C16. With `sz_res ≥ n_out`, `buf_out` on an ordered list of containers
returns for every initial list, whatever its length and the lengths of its
containers: afterwards the list holds `n_out` containers, container `i` has
`nnz_out(i)` elements, the array returned has `sz_res` entries, entry `i <
n_out` is the pointer `get_ptr` yields for container `i` as resized, and every
further entry is null. -/
theorem buf_out_spec {D P : Type} (f : Function MX) (sz_res : Nat) (null : P) (zero : D)
    (get_ptr : Nat → List D → P) (res : List (List D)) (hsz : f.n_out ≤ sz_res) :
    (buf_out f sz_res null zero get_ptr res).1.length = f.n_out ∧
    (∀ i : Nat, i < f.n_out →
      ((buf_out f sz_res null zero get_ptr res).1.getD i []).length = f.nnz_out i) ∧
    (buf_out f sz_res null zero get_ptr res).2.length = sz_res ∧
    (∀ i : Nat, i < f.n_out →
      (buf_out f sz_res null zero get_ptr res).2[i]? =
        some (get_ptr i ((buf_out f sz_res null zero get_ptr res).1.getD i []))) ∧
    (∀ i : Nat, f.n_out ≤ i → i < sz_res →
      (buf_out f sz_res null zero get_ptr res).2[i]? = some null) := by
  have hlen := length_resize res f.n_out ([] : List D)
  have hres : resize res f.n_out ([] : List D) =
      (List.range f.n_out).map (fun i => (resize res f.n_out ([] : List D)).getD i []) := by
    have h := eq_range_map_getD (resize res f.n_out ([] : List D)) []
    rw [hlen] at h
    exact h
  have hfold := buf_out_range f zero get_ptr f.n_out sz_res
    (fun i => (resize res f.n_out ([] : List D)).getD i []) (fun _ => null) f.n_out
    (Nat.le_refl _)
  rw [← hres, ← replicate_eq_range_map] at hfold
  have hb : buf_out f sz_res null zero get_ptr res =
      ((List.range f.n_out).map (fun i =>
          if i < f.n_out then
            resize ((resize res f.n_out ([] : List D)).getD i []) (f.nnz_out i) zero
          else (resize res f.n_out ([] : List D)).getD i []),
        (List.range sz_res).map (fun i =>
          if i < f.n_out then
            get_ptr i (resize ((resize res f.n_out ([] : List D)).getD i []) (f.nnz_out i) zero)
          else null)) := by
    rw [buf_out]
    simp only [hlen]
    exact hfold
  rw [hb]
  refine ⟨by simp, ?_, by simp, ?_, ?_⟩
  · intro i hi
    simp only [getD_range_map, hi, if_true, length_resize]
  · intro i hi
    have hi2 : i < sz_res := by omega
    simp only [getElem?_range_map, getD_range_map, hi, hi2, if_true]
  · intro i hi1 hi2
    have hi3 : ¬ i < f.n_out := by omega
    simp only [getElem?_range_map, hi2, hi3, if_true, if_false]

/-- The statement of C16 applied to the sample function, whose output `y` has
two nonzeros and whose output `z` has one, with three slots for results and an
initial list of three containers of other lengths. -/
theorem buf_out_spec_witness :
    (buf_out sample_fn 3 (none : Option Nat) (0 : Int) (fun i _ => some i)
        [[1, 2, 3], [], [4]]).1.length = sample_fn.n_out ∧
    (∀ i : Nat, i < sample_fn.n_out →
      ((buf_out sample_fn 3 (none : Option Nat) (0 : Int) (fun i _ => some i)
          [[1, 2, 3], [], [4]]).1.getD i []).length = sample_fn.nnz_out i) :=
  ⟨(buf_out_spec sample_fn 3 (none : Option Nat) (0 : Int) (fun i _ => some i)
      [[1, 2, 3], [], [4]] (by decide)).1,
   (buf_out_spec sample_fn 3 (none : Option Nat) (0 : Int) (fun i _ => some i)
      [[1, 2, 3], [], [4]] (by decide)).2.1⟩

/-! ## The stream operations -/

theorem good_iff (s : IStream) : s.good = true ↔ s.eofbit = false ∧ s.failbit = false := by
  simp [IStream.good]

theorem eq_of_good (s : IStream) (h : s.good = true) :
    s = { data := s.data, pos := s.pos, eofbit := false, failbit := false,
          seekable := s.seekable } := by
  obtain ⟨h1, h2⟩ := (good_iff s).1 h
  cases s
  simp only [IStream.mk.injEq, true_and, and_true] at h1 h2 ⊢
  exact ⟨h1, h2⟩

/-- C18 at the function named `a_` and `n = 2`: the name `a_` is valid, the
unrolled map hands the constructor the name `a__2`, and `check_name` rejects
that name. -/
theorem map_unroll_name_invalid :
    check_name "a_" = true ∧
      ((map printed { sample_fn with name := "a_" } 2 "unroll" 0).1.toOption.map
        Function.name) = some "a__2" ∧
      check_name "a__2" = false := by
  refine ⟨by decide, ?_, by decide⟩
  rfl

/-- C19. `if_else(name, f_true, f_false, opts)` is `conditional(name,
[f_false], f_true, opts)`: both construct, with the options `opts`, the switch
node of name `name` whose list of candidates is `f_false` alone and whose
default is `f_true`; for the selector value 0 that switch selects `f_false`,
and for every other selector value it selects `f_true`. -/
theorem if_else_eq_conditional {R : Type} (construct : SwitchNode MX → Dict → R)
    (name : String) (f_true f_false : Function MX) (opts : Dict) :
    if_else construct name f_true f_false opts =
        conditional construct name [f_false] f_true opts ∧
      if_else construct name f_true f_false opts =
        construct { name := name, f := [f_false], f_def := f_true } opts ∧
      ({ name := name, f := [f_false], f_def := f_true } : SwitchNode MX).f.length = 1 ∧
      ({ name := name, f := [f_false], f_def := f_true } : SwitchNode MX).select 0 = f_false ∧
      ∀ k : Int, k ≠ 0 →
        ({ name := name, f := [f_false], f_def := f_true } : SwitchNode MX).select k =
          f_true := by
  refine ⟨rfl, rfl, rfl, rfl, ?_⟩
  intro k hk
  unfold SwitchNode.select
  split
  · rename_i h
    simp only [List.length_singleton, Nat.cast_one] at h
    omega
  · rfl

/-- The statement of C19 applied to the sample function as `f_true` and its
two-fold map as `f_false`, at the selector value 1. -/
theorem if_else_eq_conditional_witness :
    (1 : Int) ≠ 0 ∧
      ({ name := "sw", f := [sample_map], f_def := sample_fn } : SwitchNode String).select 1 =
        sample_fn :=
  ⟨by decide,
    (if_else_eq_conditional (fun (s : SwitchNode String) (_ : Dict) => s.name) "sw" sample_fn
      sample_map []).2.2.2.2 1 (by decide)⟩

end Casadi
